import Mathlib

/-!
Verification development for the Astonia client's texture/surface cache
(hashing, chaining, eviction engine) and its tracked memory allocator.

The allocator model follows `src/src/game/memory.c` directly.  The cache
engine model (descriptors, FNV-1a hashing, bucket table, entry store,
eviction, lookup/insert) is modelled from the specification, since only
its test harness is present in the sources.
-/

set_option maxHeartbeats 1000000
set_option maxRecDepth 100000

/-! ## FNV-1a hashing (cache descriptor hash function)

Modelled from the spec: the production hash (`hashfunc_text` and the
sprite-descriptor hash in `sdl_texture.c`, exercised by
`test_text_hash_distribution`) folds every input byte through a 32-bit
FNV-1a accumulator and reduces modulo the bucket count `MAX_TEXHASH`. -/

/-- Number of hash buckets (`MAX_TEXHASH` in the reference system). -/
def BUCKET_COUNT : Nat := 65536

/-- Capacity of the entry store (`MAX_TEXCACHE` in the reference system). -/
def CACHE_CAPACITY : Nat := 32768

/-- Standard 32-bit FNV-1a offset basis. -/
def FNV_OFFSET : Nat := 2166136261

/-- Standard 32-bit FNV-1a prime. -/
def FNV_PRIME : Nat := 16777619

/-- One FNV-1a step: XOR the byte into the accumulator, multiply by the
prime, all in 32-bit arithmetic. -/
def fnvStep (acc b : Nat) : Nat := ((acc ^^^ b) * FNV_PRIME) % 4294967296

/-- Fold a byte list through the FNV-1a accumulator. -/
def fnvFold (acc : Nat) (bs : List Nat) : Nat := bs.foldl fnvStep acc

/-- Serialize a 32-bit integer as four little-endian bytes. -/
def bytes4 (n : Nat) : List Nat := [n % 256, n / 256 % 256, n / 65536 % 256, n / 16777216 % 256]

/-- Rendering descriptor: the immutable cache key.

Modelled from the spec: a sprite variant (sprite id plus 11 numeric
modifiers: per-direction lighting, scale, color overlay, extra lighting
parameters) or a text variant (byte string, packed color, style flags). -/
inductive Descriptor where
  | sprite (sprite ml ll rl ul dl scale cr cg cb light sink : Nat) : Descriptor
  | text (bytes : List Nat) (color : Nat) (flags : Nat) : Descriptor
deriving DecidableEq

/-- Serialized byte stream of a sprite descriptor's fields. -/
def spriteBytes (sprite ml ll rl ul dl scale cr cg cb light sink : Nat) : List Nat :=
  bytes4 sprite ++ bytes4 ml ++ bytes4 ll ++ bytes4 rl ++ bytes4 ul ++ bytes4 dl ++
  bytes4 scale ++ bytes4 cr ++ bytes4 cg ++ bytes4 cb ++ bytes4 light ++ bytes4 sink

/-- Serialized byte stream of a descriptor: string bytes then color then
flags for the text variant, all numeric fields for the sprite variant.
Both variants go through the same avalanche; there is no special case
for the all-zero descriptor. -/
def descBytes : Descriptor → List Nat
  | .sprite s a b c d e f g h i j k => spriteBytes s a b c d e f g h i j k
  | .text bs color flags => bs ++ bytes4 color ++ bytes4 flags

/-- Full 32-bit FNV-1a avalanche value of a descriptor (before bucket
reduction). -/
def hashBase (d : Descriptor) : Nat := fnvFold FNV_OFFSET (descBytes d)

/-- Text-descriptor hash (`hashfunc_text` in the reference system):
FNV-1a over string bytes, color and flags, reduced modulo `BUCKET_COUNT`. -/
def hashfunc_text (bs : List Nat) (color flags : Nat) : Nat :=
  hashBase (.text bs color flags) % BUCKET_COUNT

/-- Sprite-descriptor hash: the same avalanche over the serialized sprite
fields, reduced modulo `BUCKET_COUNT`. -/
def hashfunc_sprite (s ml ll rl ul dl scale cr cg cb light sink : Nat) : Nat :=
  hashBase (.sprite s ml ll rl ul dl scale cr cg cb light sink) % BUCKET_COUNT

/-- Hash of a sprite-0 descriptor with all five directional lighting
modifiers set to `light` and scale 100 (the combination exercised by
`test_sprite_zero_rendering`). -/
def spriteZeroHash (light : Nat) : Nat :=
  hashfunc_sprite 0 light light light light light 100 0 0 0 0 0

/-! ## Tracked memory allocator (`src/src/game/memory.c`)

The model keeps the tracked statistics (`memsize`, `memptrs`, `memused`,
`memptrused`, `maxmemsize`, `maxmemptrs`) and an abstract heap mapping
pointer ids to their recorded `(ID, size)` header.  The canary bytes
(`memcheck`) checked by `xmemcheck` are not representable at this level;
for a tracked pointer they are intact by construction, so `xmemcheck`
succeeds exactly when the pointer is a live tracked block with a valid
ID.  `size_t` arithmetic is 64-bit and wraps; `int` counters are
modelled as integers. -/

/-- Number of tracked memory areas (`MAX_MEM`, the length of `memname`). -/
def MAX_MEM : Nat := 25

/-- Largest value of a C `int` (`INT_MAX`). -/
def INT_MAX : Nat := 2147483647

/-- Per-allocation bookkeeping overhead in bytes:
`sizeof(struct memhead) + 2 * sizeof(memcheck)` = 16 + 256 + 256. -/
def MEM_OVERHEAD : Nat := 528

/-- 64-bit wrap-around addition (`size_t` semantics). -/
def add64 (a b : Nat) : Nat := (a + b) % 18446744073709551616

/-- 64-bit wrap-around subtraction (`size_t` semantics). -/
def sub64 (a b : Nat) : Nat :=
  (a + 18446744073709551616 - b % 18446744073709551616) % 18446744073709551616

/-- State of the tracked allocator: the exported statistics plus an
abstract heap of live tracked blocks (pointer id to recorded area ID and
payload size). -/
structure MemState where
  memsize : Nat → Nat
  memptrs : Nat → Int
  memused : Nat
  memptrused : Int
  maxmemsize : Nat
  maxmemptrs : Int
  heap : Nat → Option (Nat × Nat)
  nextPtr : Nat

/-- `update_mem_stats_add` from memory.c: credit `size` bytes and one
pointer to area `ID` and to the total (area 0), update the high-water
marks, and account the overhead in `memused`/`memptrused`. -/
def update_mem_stats_add (st : MemState) (ID : Nat) (size : Nat) : MemState :=
  let ms1 := Function.update st.memsize ID (add64 (st.memsize ID) size)
  let ms2 := Function.update ms1 0 (add64 (ms1 0) size)
  let mp1 := Function.update st.memptrs ID (st.memptrs ID + 1)
  let mp2 := Function.update mp1 0 (mp1 0 + 1)
  { st with
    memsize := ms2
    memptrs := mp2
    maxmemsize := if st.maxmemsize < ms2 0 then ms2 0 else st.maxmemsize
    maxmemptrs := if st.maxmemptrs < mp2 0 then mp2 0 else st.maxmemptrs
    memused := add64 st.memused (MEM_OVERHEAD + size)
    memptrused := st.memptrused + 1 }

/-- `update_mem_stats_remove` from memory.c: the inverse accounting of
`update_mem_stats_add` (no high-water update). -/
def update_mem_stats_remove (st : MemState) (ID : Nat) (size : Nat) : MemState :=
  let ms1 := Function.update st.memsize ID (sub64 (st.memsize ID) size)
  let ms2 := Function.update ms1 0 (sub64 (ms1 0) size)
  let mp1 := Function.update st.memptrs ID (st.memptrs ID - 1)
  let mp2 := Function.update mp1 0 (mp1 0 - 1)
  { st with
    memsize := ms2
    memptrs := mp2
    memused := sub64 st.memused (MEM_OVERHEAD + size)
    memptrused := st.memptrused - 1 }

/-- `xmemcheck` on a non-NULL pointer: succeeds iff the pointer is a live
tracked block whose recorded ID is in range (the canary borders of a
tracked block are intact by construction in this model). -/
def xmemcheckOk (st : MemState) (p : Nat) : Bool :=
  match st.heap p with
  | some (ID, _) => ID < MAX_MEM
  | none => false

/-- `xmalloc` from memory.c.  `allocOk` models whether the underlying
`CALLOC` succeeds.  Mirrors the source's statement order: the zero-size
early return precedes every statistics update; `memptrused` is bumped
before the allocation, `memused` before the ID check. -/
def xmalloc (st : MemState) (size : Nat) (ID : Nat) (allocOk : Bool) :
    Option Nat × MemState :=
  if size = 0 then (none, st)
  else
    let st1 := { st with memptrused := st.memptrused + 1 }
    if allocOk = false then (none, st1)
    else
      let st2 := { st1 with memused := add64 st1.memused (MEM_OVERHEAD + size) }
      if MAX_MEM ≤ ID then (none, st2)
      else
        let ms1 := Function.update st2.memsize ID (add64 (st2.memsize ID) size)
        let ms2 := Function.update ms1 0 (add64 (ms1 0) size)
        let mp1 := Function.update st2.memptrs ID (st2.memptrs ID + 1)
        let mp2 := Function.update mp1 0 (mp1 0 + 1)
        let p := st2.nextPtr
        (some p,
          { st2 with
            memsize := ms2
            memptrs := mp2
            maxmemsize := if st2.maxmemsize < ms2 0 then ms2 0 else st2.maxmemsize
            maxmemptrs := if st2.maxmemptrs < mp2 0 then mp2 0 else st2.maxmemptrs
            heap := Function.update st2.heap p (some (ID, size))
            nextPtr := p + 1 })

/-- `xfree` from memory.c: NULL is a no-op; a pointer failing `xmemcheck`
is a no-op; otherwise remove the block's statistics and free it. -/
def xfree (st : MemState) (ptr : Option Nat) : MemState :=
  match ptr with
  | none => st
  | some p =>
    if xmemcheckOk st p = false then st
    else
      match st.heap p with
      | none => st
      | some (ID, size) =>
        { update_mem_stats_remove st ID size with
          heap := Function.update st.heap p none }

/-- `xrealloc` from memory.c.  `reallocOk` models whether the underlying
`REALLOC` succeeds.  On failure the statistics removed for the old block
are credited back (`update_mem_stats_add` with the old ID and size) and
NULL is returned.  The oversize-failure branch after a successful
`REALLOC` returns NULL leaving the statistics removed (as the source
does); the heap keeps the old record there since the block still exists. -/
def xrealloc (st : MemState) (ptr : Option Nat) (size : Nat) (ID : Nat)
    (reallocOk : Bool) : Option Nat × MemState :=
  match ptr with
  | none => if INT_MAX < size then (none, st) else xmalloc st size ID reallocOk
  | some p =>
    if size = 0 then (none, xfree st (some p))
    else if xmemcheckOk st p = false then (none, st)
    else
      match st.heap p with
      | none => (none, st)
      | some (oldID, oldSize) =>
        let st1 := update_mem_stats_remove st oldID oldSize
        if reallocOk = false then (none, update_mem_stats_add st1 oldID oldSize)
        else if INT_MAX < size then (none, st1)
        else
          let st2 := update_mem_stats_add st1 ID size
          (some p, { st2 with heap := Function.update st2.heap p (some (ID, size)) })

/-! ## Texture cache engine

Modelled from the spec: the bucket table / entry store / eviction engine
of `sdl_texture.c` (absent from the sources; only its test harness
`test_sdl_hash.c` is present).  Entries live in a fixed-capacity store
addressed by dense indices; each bucket holds the head of a singly
linked chain threaded through the entries' `hnext` links; `load` is the
lookup/insert orchestrator and eviction reuses slots in insertion-ring
order. -/

/-- Cache sizing parameters.  The reference system uses
`bucketCount = MAX_TEXHASH = 65536`, `cacheCapacity = MAX_TEXCACHE =
32768` and a chain-walk sentinel cap of 10000. -/
structure Config where
  bucketCount : Nat
  cacheCapacity : Nat
  chainCap : Nat
deriving DecidableEq

/-- The reference system's sizing.  The spec fixes the bucket count and
capacity and asks for "a large sentinel count" on chain traversal; it is
taken here at least as large as the capacity, so that an intact chain
(whose length is bounded by the number of live entries) is never
truncated. -/
def refConfig : Config :=
  { bucketCount := BUCKET_COUNT, cacheCapacity := CACHE_CAPACITY, chainCap := 100000 }

/-- Bucket index of a descriptor: the 32-bit avalanche reduced modulo the
bucket count. -/
def hashDesc (cfg : Config) (d : Descriptor) : Nat := hashBase d % cfg.bucketCount

/-- One record of the entry store: the stored descriptor (with its kind
tag), the owned surface handle, the forward chain link (`hnext`, with
`none` as the `STX_NONE` sentinel) and the liveness flag. -/
structure Entry where
  desc : Descriptor
  surface : Nat
  hnext : Option Nat
  used : Bool
deriving DecidableEq

/-- The entry used for freshly initialized slots. -/
def blankEntry : Entry :=
  { desc := Descriptor.text [] 0 0, surface := 0, hnext := none, used := false }

/-- Whole cache state: bucket table, entry store, free-slot list,
eviction ring position, plus instrumentation for the backend surface
contract (a fresh-handle counter and the trace of released handles). -/
structure CacheState where
  buckets : Nat → Option Nat
  entries : Nat → Entry
  freeSlots : List Nat
  ringPos : Nat
  nextHandle : Nat
  released : List Nat

/-- Initial cache state: every bucket empty, every slot free and blank. -/
def initState (cfg : Config) : CacheState :=
  { buckets := fun _ => none
    entries := fun _ => blankEntry
    freeSlots := List.range cfg.cacheCapacity
    ringPos := 0
    nextHandle := 0
    released := [] }

/-- Result of a chain lookup: a hit with an entry index, a normal miss,
or the fatal consistency failure raised when the traversal cap is
exceeded. -/
inductive FindResult where
  | fatal : FindResult
  | miss : FindResult
  | hit : Nat → FindResult
deriving DecidableEq

/-- Chain walk of `find`: follow `hnext` from the given head, comparing
each visited entry's stored descriptor for exact (field-wise, kind
included) equality; running out of fuel is the fatal consistency
failure, never a silent miss. -/
def findAux (st : CacheState) (d : Descriptor) : Option Nat → Nat → FindResult
  | none, _ => .miss
  | some _, 0 => .fatal
  | some s, fuel + 1 =>
    if (st.entries s).desc = d then .hit s
    else findAux st d (st.entries s).hnext fuel

/-- `find(descriptor)`: walk the chain of the descriptor's bucket, capped
at `chainCap` iterations. -/
def find (cfg : Config) (st : CacheState) (d : Descriptor) : FindResult :=
  findAux st d (st.buckets (hashDesc cfg d)) cfg.chainCap

/-- Whether the raw chain walk from a head pointer reaches the `none`
terminator within the given number of steps. -/
def walkEnds (st : CacheState) : Option Nat → Nat → Bool
  | none, _ => true
  | some _, 0 => false
  | some s, fuel + 1 => walkEnds st (st.entries s).hnext fuel

/-- Splice the victim `v` out of the chain starting at `cur` (which is
not `v`): find the predecessor whose `hnext` is `v` and redirect it to
`v`'s successor. -/
def unlinkChain (ent : Nat → Entry) (v : Nat) : Nat → Nat → (Nat → Entry)
  | _, 0 => ent
  | cur, fuel + 1 =>
    match (ent cur).hnext with
    | none => ent
    | some nxt =>
      if nxt = v then
        Function.update ent cur { ent cur with hnext := (ent v).hnext }
      else unlinkChain ent v nxt fuel

/-- Unlink step of an eviction: remove slot `v` from the chain of its
bucket, updating the bucket-table head when `v` is the chain head and
the predecessor's `hnext` when it is a mid/tail node. -/
def evictUnlink (cfg : Config) (st : CacheState) (v : Nat) : CacheState :=
  match st.buckets (hashDesc cfg (st.entries v).desc) with
  | none => st
  | some h =>
    if h = v then
      { st with
        buckets := Function.update st.buckets (hashDesc cfg (st.entries v).desc)
          (st.entries v).hnext }
    else { st with entries := unlinkChain st.entries v h cfg.cacheCapacity }

/-- Evict the entry in slot `v`: unlink it from its bucket chain, release
its surface handle through the backend, and blank the slot.  The freed
slot is handed to the caller and is not put on the free list. -/
def evictCore (cfg : Config) (st : CacheState) (v : Nat) : CacheState :=
  let st1 := evictUnlink cfg st v
  { st1 with
    entries := Function.update st1.entries v
      { st1.entries v with used := false, hnext := none }
    released := (st.entries v).surface :: st1.released }

/-- `acquire_slot()`: pop the next free slot if one exists; otherwise
evict the victim designated by the insertion ring and hand its slot
back.  Fails (returns `none`) only when the capacity is zero. -/
def acquireSlot (cfg : Config) (st : CacheState) : Option (Nat × CacheState) :=
  match st.freeSlots with
  | s :: rest => some (s, { st with freeSlots := rest })
  | [] =>
    if cfg.cacheCapacity = 0 then none
    else
      let v := st.ringPos % cfg.cacheCapacity
      some (v, { evictCore cfg st v with ringPos := st.ringPos + 1 })

/-- Result of `load`: the "none" failure sentinel (slot acquisition
failed), the "not found" sentinel (backend surface creation failed), the
fatal consistency failure propagated from `find`, or an entry index. -/
inductive LoadResult where
  | noneFail : LoadResult
  | notFound : LoadResult
  | fatalErr : LoadResult
  | entry : Nat → LoadResult
deriving DecidableEq

/-- `load(descriptor)`: hash and walk the chain; on a hit return the
existing index with no mutation.  On a miss acquire a slot (returning
the "none" sentinel, tables untouched, if that fails); ask the backend
for a surface (`ok` models its success); on backend failure release the
acquired slot back to the free list and return "not found"; otherwise
populate the entry, link it at the head of its bucket chain, and return
its index. -/
def load (cfg : Config) (st : CacheState) (d : Descriptor) (ok : Bool) :
    LoadResult × CacheState :=
  match find cfg st d with
  | .fatal => (.fatalErr, st)
  | .hit i => (.entry i, st)
  | .miss =>
    match acquireSlot cfg st with
    | none => (.noneFail, st)
    | some (s, st1) =>
      if ok then
        let b := hashDesc cfg d
        let newEnt : Entry :=
          { desc := d, surface := st1.nextHandle, hnext := st1.buckets b, used := true }
        (.entry s,
          { st1 with
            entries := Function.update st1.entries s newEnt
            buckets := Function.update st1.buckets b (some s)
            nextHandle := st1.nextHandle + 1 })
      else
        (.notFound, { st1 with freeSlots := s :: st1.freeSlots })

/-- Cache states reachable from the initial state by any sequence of
`load` operations (with arbitrary descriptors and backend outcomes).
`find` does not mutate the state. -/
inductive Reachable (cfg : Config) : CacheState → Prop where
  | init : Reachable cfg (initState cfg)
  | step (st : CacheState) (d : Descriptor) (ok : Bool) :
      Reachable cfg st → Reachable cfg (load cfg st d ok).2

/-- Number of live entries in the store. -/
def liveCount (cfg : Config) (st : CacheState) : Nat :=
  ((Finset.range cfg.cacheCapacity).filter (fun s => (st.entries s).used = true)).card

/-- Load a list of descriptors in order, all backend creations
succeeding. -/
def loadList (cfg : Config) (st : CacheState) : List Descriptor → CacheState
  | [] => st
  | d :: ds => loadList cfg (load cfg st d true).2 ds

/-- `Realizes ent p l`: starting from head pointer `p` and following the
`hnext` links of `ent`, the chain visits exactly the slots of `l` and
then reaches the `none` terminator. -/
inductive Realizes (ent : Nat → Entry) : Option Nat → List Nat → Prop where
  | nil : Realizes ent none []
  | cons {s : Nat} {rest : List Nat} :
      Realizes ent (ent s).hnext rest → Realizes ent (some s) (s :: rest)

/-- Well-formedness invariant of a cache state: chains are finite,
mutually disjoint, carry exactly the live entries of their own bucket;
the free list is exactly the set of dead slots; surface handles of live
entries are pairwise distinct, below the freshness counter, and never
already released; the release trace is duplicate-free. -/
structure WF (cfg : Config) (st : CacheState) : Prop where
  chainEx : ∀ b, ∃ l, Realizes st.entries (st.buckets b) l
  chainMem : ∀ b l, Realizes st.entries (st.buckets b) l → ∀ s, s ∈ l →
    s < cfg.cacheCapacity ∧ (st.entries s).used = true ∧ hashDesc cfg (st.entries s).desc = b
  chainDisj : ∀ b b' l l', b ≠ b' → Realizes st.entries (st.buckets b) l →
    Realizes st.entries (st.buckets b') l' → ∀ s, s ∈ l → s ∉ l'
  usedChain : ∀ s, s < cfg.cacheCapacity → (st.entries s).used = true →
    ∀ l, Realizes st.entries (st.buckets (hashDesc cfg (st.entries s).desc)) l → s ∈ l
  freeLt : ∀ s, s ∈ st.freeSlots → s < cfg.cacheCapacity
  freeUnused : ∀ s, s ∈ st.freeSlots → (st.entries s).used = false
  unusedFree : ∀ s, s < cfg.cacheCapacity → (st.entries s).used = false → s ∈ st.freeSlots
  freeNodup : st.freeSlots.Nodup
  handleLt : ∀ s, s < cfg.cacheCapacity → (st.entries s).used = true →
    (st.entries s).surface < st.nextHandle
  relLt : ∀ h, h ∈ st.released → h < st.nextHandle
  relNodup : st.released.Nodup
  usedNotRel : ∀ s, s < cfg.cacheCapacity → (st.entries s).used = true →
    (st.entries s).surface ∉ st.released
  handleInj : ∀ s t, s < cfg.cacheCapacity → t < cfg.cacheCapacity →
    (st.entries s).used = true → (st.entries t).used = true →
    (st.entries s).surface = (st.entries t).surface → s = t

/-- Well-formedness after slot acquisition: slot `v` has been handed out
(dead, off the free list) but not yet repopulated or released back; the
rest of the invariant holds. -/
structure WFx (cfg : Config) (st : CacheState) (v : Nat) : Prop where
  chainEx : ∀ b, ∃ l, Realizes st.entries (st.buckets b) l
  chainMem : ∀ b l, Realizes st.entries (st.buckets b) l → ∀ s, s ∈ l →
    s < cfg.cacheCapacity ∧ (st.entries s).used = true ∧ hashDesc cfg (st.entries s).desc = b
  chainDisj : ∀ b b' l l', b ≠ b' → Realizes st.entries (st.buckets b) l →
    Realizes st.entries (st.buckets b') l' → ∀ s, s ∈ l → s ∉ l'
  usedChain : ∀ s, s < cfg.cacheCapacity → (st.entries s).used = true →
    ∀ l, Realizes st.entries (st.buckets (hashDesc cfg (st.entries s).desc)) l → s ∈ l
  freeLt : ∀ s, s ∈ st.freeSlots → s < cfg.cacheCapacity
  freeUnused : ∀ s, s ∈ st.freeSlots → (st.entries s).used = false
  unusedFree : ∀ s, s < cfg.cacheCapacity → (st.entries s).used = false →
    s ∈ st.freeSlots ∨ s = v
  freeNodup : st.freeSlots.Nodup
  handleLt : ∀ s, s < cfg.cacheCapacity → (st.entries s).used = true →
    (st.entries s).surface < st.nextHandle
  relLt : ∀ h, h ∈ st.released → h < st.nextHandle
  relNodup : st.released.Nodup
  usedNotRel : ∀ s, s < cfg.cacheCapacity → (st.entries s).used = true →
    (st.entries s).surface ∉ st.released
  handleInj : ∀ s t, s < cfg.cacheCapacity → t < cfg.cacheCapacity →
    (st.entries s).used = true → (st.entries t).used = true →
    (st.entries s).surface = (st.entries t).surface → s = t
  vLt : v < cfg.cacheCapacity
  vUnused : (st.entries v).used = false
  vNotFree : v ∉ st.freeSlots

/-! ## Concrete instances used to exercise the definitions -/

/-- A small cache configuration (capacity 2, 8 buckets, walk cap 8). -/
def cfg0 : Config := { bucketCount := 8, cacheCapacity := 2, chainCap := 8 }

/-- A configuration with zero capacity (slot acquisition always fails). -/
def cfgZ : Config := { bucketCount := 8, cacheCapacity := 0, chainCap := 8 }

/-- Sample text descriptors. -/
def dA : Descriptor := Descriptor.text [72, 80] 16777215 0

/-- A second sample descriptor, differing from `dA` in the flags field. -/
def dB : Descriptor := Descriptor.text [72, 80] 16777215 1

/-- A third sample descriptor, differing in the color field. -/
def dC : Descriptor := Descriptor.text [72, 80] 255 0

/-- Three pairwise distinct descriptors, one more than `cfg0`'s capacity. -/
def ds0 : List Descriptor := [dA, dB, dC]

/-- The cache state after loading `dA` into the fresh small cache. -/
def stOne : CacheState := (load cfg0 (initState cfg0) dA true).2

/-- A deliberately corrupt state: every bucket's head is slot 0 and slot 0
links back to itself, so every chain is cyclic. -/
def stCyc : CacheState :=
  { buckets := fun _ => some 0
    entries := fun _ => { blankEntry with hnext := some 0 }
    freeSlots := []
    ringPos := 0
    nextHandle := 0
    released := [] }

/-- A small allocator state holding one tracked block: pointer 0 of area
3 with 40 payload bytes. -/
def memW : MemState :=
  { memsize := fun i => if i = 3 then 40 else if i = 0 then 40 else 0
    memptrs := fun i => if i = 3 then 1 else if i = 0 then 1 else 0
    memused := 568
    memptrused := 1
    maxmemsize := 40
    maxmemptrs := 1
    heap := fun q => if q = 0 then some (3, 40) else none
    nextPtr := 1 }

/-! ## Chain realization lemmas -/

theorem realizes_det {ent : Nat → Entry} {p : Option Nat} {l1 l2 : List Nat}
    (h1 : Realizes ent p l1) (h2 : Realizes ent p l2) : l1 = l2 := by
  induction h1 generalizing l2 with
  | nil => cases h2 with | nil => rfl
  | @cons x rest hsub ih =>
    cases h2 with
    | @cons _ rest2 hsub2 => exact congrArg (List.cons x) (ih hsub2)

theorem realizes_some_inv {ent : Nat → Entry} {p : Option Nat} {l : List Nat}
    (h : Realizes ent p l) :
    (p = none ∧ l = []) ∨
    (∃ x rest, p = some x ∧ l = x :: rest ∧ Realizes ent (ent x).hnext rest) := by
  cases h with
  | nil => exact Or.inl ⟨rfl, rfl⟩
  | @cons x rest h' => exact Or.inr ⟨x, rest, rfl, rfl, h'⟩

theorem realizes_mem {ent : Nat → Entry} {p : Option Nat} {l : List Nat} {s : Nat}
    (h : Realizes ent p l) (hs : s ∈ l) :
    ∃ t, Realizes ent (some s) (s :: t) ∧ t.length < l.length := by
  induction h with
  | nil => cases hs
  | @cons x rest hsub ih =>
    rcases List.mem_cons.mp hs with rfl | hs'
    · exact ⟨rest, Realizes.cons hsub, by simp⟩
    · rcases ih hs' with ⟨t, ht, hl⟩
      exact ⟨t, ht, Nat.lt_trans hl (by simp)⟩

theorem realizes_head_not_mem {ent : Nat → Entry} {x : Nat} {rest : List Nat}
    (h : Realizes ent (some x) (x :: rest)) : x ∉ rest := by
  intro hx
  cases h with
  | cons h' =>
    rcases realizes_mem h' hx with ⟨t, ht, hlen⟩
    have heq := realizes_det (Realizes.cons h') ht
    have : rest = t := by simpa using heq
    subst this
    exact Nat.lt_irrefl _ hlen

theorem realizes_nodup {ent : Nat → Entry} {p : Option Nat} {l : List Nat}
    (h : Realizes ent p l) : l.Nodup := by
  induction h with
  | nil => exact List.nodup_nil
  | @cons x rest hsub ih =>
    exact List.nodup_cons.mpr ⟨realizes_head_not_mem (Realizes.cons hsub), ih⟩

theorem realizes_frame {ent ent' : Nat → Entry} {p : Option Nat} {l : List Nat}
    (h : Realizes ent p l) (he : ∀ s, s ∈ l → ent' s = ent s) : Realizes ent' p l := by
  induction h with
  | nil => exact Realizes.nil
  | @cons x rest hsub ih =>
    have hx : ent' x = ent x := he x (by simp)
    refine Realizes.cons ?_
    rw [hx]
    exact ih (fun s hs => he s (by simp [hs]))

theorem nodup_lt_length_le {l : List Nat} {n : Nat} (hnd : l.Nodup)
    (hlt : ∀ s, s ∈ l → s < n) : l.length ≤ n := by
  have h1 : l.toFinset ⊆ Finset.range n := by
    intro x hx
    simpa using hlt x (List.mem_toFinset.mp hx)
  have h2 := Finset.card_le_card h1
  rwa [List.toFinset_card_of_nodup hnd, Finset.card_range] at h2

/-! ## Chain walk lemmas -/

theorem findAux_hit_desc {st : CacheState} {d : Descriptor} {j : Nat} :
    ∀ {p : Option Nat} {fuel : Nat}, findAux st d p fuel = .hit j →
    (st.entries j).desc = d := by
  intro p fuel
  induction fuel generalizing p with
  | zero => cases p <;> simp [findAux]
  | succ n ih =>
    cases p with
    | none => simp [findAux]
    | some s =>
      simp only [findAux]
      by_cases hd : (st.entries s).desc = d
      · rw [if_pos hd]
        intro h
        simp only [FindResult.hit.injEq] at h
        subst h
        exact hd
      · rw [if_neg hd]
        exact ih

theorem findAux_realizes {st : CacheState} {d : Descriptor} {p : Option Nat} {l : List Nat}
    (h : Realizes st.entries p l) : ∀ fuel, l.length ≤ fuel →
    findAux st d p fuel ≠ .fatal ∧ ∀ j, findAux st d p fuel = .hit j → j ∈ l := by
  induction h with
  | nil =>
    intro fuel _
    cases fuel <;> simp [findAux]
  | @cons x rest hsub ih =>
    intro fuel hlen
    cases fuel with
    | zero => simp at hlen
    | succ n =>
      simp only [findAux]
      by_cases hd : (st.entries x).desc = d
      · rw [if_pos hd]
        refine ⟨by simp, ?_⟩
        intro j hj
        simp only [FindResult.hit.injEq] at hj
        simp [hj]
      · rw [if_neg hd]
        have hrec := ih n (by simp at hlen; omega)
        exact ⟨hrec.1, fun j hj => List.mem_cons_of_mem _ (hrec.2 j hj)⟩

theorem findAux_miss_walkEnds {st : CacheState} {d : Descriptor} :
    ∀ {p : Option Nat} {fuel : Nat}, findAux st d p fuel = .miss →
    walkEnds st p fuel = true := by
  intro p fuel
  induction fuel generalizing p with
  | zero => cases p <;> simp [findAux, walkEnds]
  | succ n ih =>
    cases p with
    | none => simp [walkEnds]
    | some s =>
      simp only [findAux, walkEnds]
      by_cases hd : (st.entries s).desc = d
      · rw [if_pos hd]; intro h; cases h
      · rw [if_neg hd]; exact ih

theorem walkEnds_false_find {st : CacheState} {d : Descriptor} :
    ∀ {p : Option Nat} {fuel : Nat}, walkEnds st p fuel = false →
    findAux st d p fuel = .fatal ∨ ∃ i, findAux st d p fuel = .hit i := by
  intro p fuel
  induction fuel generalizing p with
  | zero =>
    cases p with
    | none => simp [walkEnds]
    | some s => intro _; exact Or.inl rfl
  | succ n ih =>
    cases p with
    | none => simp [walkEnds]
    | some s =>
      simp only [findAux, walkEnds]
      by_cases hd : (st.entries s).desc = d
      · rw [if_pos hd]
        intro _
        exact Or.inr ⟨s, rfl⟩
      · rw [if_neg hd]
        exact ih

/-! ## Claim theorems: hash function -/

/-- C1: the text-descriptor hash is a pure function equal to folding the
string bytes, the color integer's bytes, and the flags integer's bytes
through a 32-bit FNV-1a accumulator (offset basis 2166136261, prime
16777619) reduced modulo `BUCKET_COUNT`, and its result always lies in
`[0, BUCKET_COUNT)`. -/
theorem text_hash_fnv1a (bs : List Nat) (color flags : Nat) :
    hashfunc_text bs color flags =
      List.foldl (fun acc b => ((acc ^^^ b) * 16777619) % 4294967296) 2166136261
        (bs ++ bytes4 color ++ bytes4 flags) % 65536 ∧
    hashfunc_text bs color flags < BUCKET_COUNT := by
  exact ⟨rfl, Nat.mod_lt _ (by decide)⟩

/-- C8: the all-zero sprite descriptor goes through the same FNV-1a
avalanche as any other input (no special case fixing its bucket), and
sprite 0 with the three varied lighting settings of the test neither
collides into a single bucket nor lands in bucket 0. -/
theorem sprite_zero_distribution :
    hashfunc_sprite 0 0 0 0 0 0 0 0 0 0 0 0 =
      fnvFold FNV_OFFSET (spriteBytes 0 0 0 0 0 0 0 0 0 0 0 0) % BUCKET_COUNT ∧
    ¬(spriteZeroHash 0 = spriteZeroHash 1 ∧ spriteZeroHash 1 = spriteZeroHash 2) ∧
    ¬(spriteZeroHash 0 = 0 ∨ spriteZeroHash 1 = 0 ∨ spriteZeroHash 2 = 0) := by
  refine ⟨rfl, by decide, by decide⟩

/-! ## Claim theorems: chain walk and lookup -/

/-- C7: the `find` chain walk always terminates; a walk that does not
reach the chain terminator within the `chainCap` sentinel is reported as
the fatal consistency failure (never as a silent miss), and conversely a
normal miss is only returned after the whole chain was walked to its
terminator. -/
theorem chain_walk_bounded (cfg : Config) (st : CacheState) (d : Descriptor) :
    (find cfg st d = FindResult.miss →
      walkEnds st (st.buckets (hashDesc cfg d)) cfg.chainCap = true) ∧
    (walkEnds st (st.buckets (hashDesc cfg d)) cfg.chainCap = false →
      find cfg st d = FindResult.fatal ∨ ∃ i, find cfg st d = FindResult.hit i) := by
  exact ⟨findAux_miss_walkEnds, walkEnds_false_find⟩

/-- C7 witness: on a concrete corrupt state whose chain is a self-loop,
the walk does not terminate within the cap and `find` reports the fatal
failure (the looked-up descriptor matches no entry). -/
theorem chain_walk_bounded_witness :
    find cfg0 stCyc dA = FindResult.fatal ∨ ∃ i, find cfg0 stCyc dA = FindResult.hit i :=
  (chain_walk_bounded cfg0 stCyc dA).2 (by rfl)

theorem load_miss_none_eq (cfg : Config) (st : CacheState) (d : Descriptor) (ok : Bool)
    (hmiss : find cfg st d = FindResult.miss) (hacq : acquireSlot cfg st = none) :
    load cfg st d ok = (LoadResult.noneFail, st) := by
  unfold load
  rw [hmiss, hacq]

theorem load_miss_true_eq (cfg : Config) (st st1 : CacheState) (d : Descriptor) (s : Nat)
    (hmiss : find cfg st d = FindResult.miss)
    (hacq : acquireSlot cfg st = some (s, st1)) :
    load cfg st d true =
      (LoadResult.entry s,
        { st1 with
          entries := Function.update st1.entries s
            { desc := d, surface := st1.nextHandle
              hnext := st1.buckets (hashDesc cfg d), used := true }
          buckets := Function.update st1.buckets (hashDesc cfg d) (some s)
          nextHandle := st1.nextHandle + 1 }) := by
  unfold load
  rw [hmiss, hacq]
  rfl

theorem load_miss_false_eq (cfg : Config) (st st1 : CacheState) (d : Descriptor) (s : Nat)
    (hmiss : find cfg st d = FindResult.miss)
    (hacq : acquireSlot cfg st = some (s, st1)) :
    load cfg st d false =
      (LoadResult.notFound, { st1 with freeSlots := s :: st1.freeSlots }) := by
  unfold load
  rw [hmiss, hacq]
  rfl

/-- C3: if a miss of descriptor `d` leads `load` to insert it at entry
index `i`, then an immediate `find d` on the resulting state returns a
hit on the same index `i`; and in any state a `find` hit always points
at an entry whose stored descriptor is exactly (field-wise, kind
included) the queried one. -/
theorem hit_determinism (cfg : Config) (st : CacheState) (d d' : Descriptor) (i j : Nat) :
    (0 < cfg.chainCap → find cfg st d = FindResult.miss →
      (load cfg st d true).1 = LoadResult.entry i →
      find cfg (load cfg st d true).2 d = FindResult.hit i) ∧
    (find cfg st d' = FindResult.hit j → (st.entries j).desc = d') := by
  constructor
  · intro hcap hmiss hres
    cases hacq : acquireSlot cfg st with
    | none =>
      rw [load_miss_none_eq cfg st d true hmiss hacq] at hres
      cases hres
    | some pr =>
      obtain ⟨s, st1⟩ := pr
      have hld := load_miss_true_eq cfg st st1 d s hmiss hacq
      rw [hld] at hres
      have hsi : s = i := by simpa using hres
      subst hsi
      rw [hld]
      obtain ⟨n, hn⟩ : ∃ n, cfg.chainCap = n + 1 := ⟨cfg.chainCap - 1, by omega⟩
      unfold find
      rw [hn]
      simp [findAux, Function.update_same]
  · exact findAux_hit_desc

/-- C3 witness: loading `dA` into the fresh small cache inserts it at
slot 0 and an immediate find returns slot 0. -/
theorem hit_determinism_witness : find cfg0 (load cfg0 (initState cfg0) dA true).2 dA = FindResult.hit 0 :=
  (hit_determinism cfg0 (initState cfg0) dA dA 0 0).1 (by decide) (by rfl) (by rfl)

/-- C6: on a miss, if slot acquisition fails, `load` returns the "none"
failure sentinel with the state (bucket table and entry store included)
completely unchanged; if acquisition succeeds but backend surface
creation fails, `load` returns the "not found" sentinel and the acquired
slot is pushed back onto the free list (not leaked). -/
theorem load_failure_paths (cfg : Config) (st st1 : CacheState) (d : Descriptor)
    (s : Nat) (ok : Bool) :
    (find cfg st d = FindResult.miss → acquireSlot cfg st = none →
      load cfg st d ok = (LoadResult.noneFail, st)) ∧
    (find cfg st d = FindResult.miss → acquireSlot cfg st = some (s, st1) →
      load cfg st d false = (LoadResult.notFound, { st1 with freeSlots := s :: st1.freeSlots }) ∧
      s ∈ (load cfg st d false).2.freeSlots) := by
  constructor
  · intro hmiss hacq
    unfold load
    rw [hmiss, hacq]
  · intro hmiss hacq
    unfold load
    rw [hmiss, hacq]
    exact ⟨rfl, by simp⟩

/-- C6 witness: with a zero-capacity configuration, acquisition fails and
`load` returns the "none" sentinel leaving the initial state intact. -/
theorem load_failure_paths_witness :
    load cfgZ (initState cfgZ) dA true = (LoadResult.noneFail, initState cfgZ) :=
  (load_failure_paths cfgZ (initState cfgZ) (initState cfgZ) dA 0 true).1 (by rfl) (by rfl)

/-! ## Claim theorems: memory allocator -/

/-- C9: `xmalloc` with size 0 returns NULL for every ID and allocator
outcome, leaving the whole allocator state (tracked statistics
`memsize`, `memptrs`, `memused`, `memptrused` included) unchanged, and
`xfree NULL` is a complete no-op. -/
theorem xmalloc_zero_xfree_null (st : MemState) (ID : Nat) (ok : Bool) :
    xmalloc st 0 ID ok = (none, st) ∧ xfree st none = st :=
  ⟨rfl, rfl⟩

theorem add64_sub64 (a b : Nat) (h : a < 18446744073709551616) :
    add64 (sub64 a b) b = a := by
  unfold add64 sub64
  omega

theorem stats_remove_add_restore (st : MemState) (ID size : Nat)
    (h1 : st.memsize ID < 18446744073709551616)
    (h0 : st.memsize 0 < 18446744073709551616)
    (hu : st.memused < 18446744073709551616) :
    (update_mem_stats_add (update_mem_stats_remove st ID size) ID size).memsize = st.memsize ∧
    (update_mem_stats_add (update_mem_stats_remove st ID size) ID size).memptrs = st.memptrs ∧
    (update_mem_stats_add (update_mem_stats_remove st ID size) ID size).memused = st.memused ∧
    (update_mem_stats_add (update_mem_stats_remove st ID size) ID size).memptrused = st.memptrused := by
  unfold update_mem_stats_add update_mem_stats_remove
  refine ⟨?_, ?_, ?_, ?_⟩
  · funext i
    by_cases hI : ID = 0
    · subst hI
      by_cases hi : i = 0
      · subst hi
        simp only [Function.update_same]
        unfold add64 sub64
        omega
      · simp [Function.update_noteq hi]
    · by_cases hi : i = 0
      · subst hi
        simp only [Function.update_same, Function.update_noteq (Ne.symm hI)]
        exact add64_sub64 _ _ h0
      · by_cases hi2 : i = ID
        · subst hi2
          simp only [Function.update_noteq hi, Function.update_same]
          exact add64_sub64 _ _ h1
        · simp [Function.update_noteq hi, Function.update_noteq hi2]
  · funext i
    by_cases hI : ID = 0
    · subst hI
      by_cases hi : i = 0
      · subst hi
        simp only [Function.update_same]
        omega
      · simp [Function.update_noteq hi]
    · by_cases hi : i = 0
      · subst hi
        simp only [Function.update_same, Function.update_noteq (Ne.symm hI)]
        omega
      · by_cases hi2 : i = ID
        · subst hi2
          simp only [Function.update_noteq hi, Function.update_same]
          omega
        · simp [Function.update_noteq hi, Function.update_noteq hi2]
  · exact add64_sub64 _ _ hu
  · show st.memptrused - 1 + 1 = st.memptrused
    omega

/-- C10: when the underlying `REALLOC` fails inside `xrealloc` on a valid
tracked pointer with a nonzero requested size, `xrealloc` returns NULL
and the tracked accounting state — `memsize` (per ID and total),
`memptrs` (per ID and total), `memused` and `memptrused` — is restored
to exactly its values before the call. -/
theorem xrealloc_fail_restores (st : MemState) (p size ID oldID oldSize : Nat)
    (hp : st.heap p = some (oldID, oldSize)) (hid : oldID < MAX_MEM) (hs : size ≠ 0)
    (h1 : st.memsize oldID < 18446744073709551616)
    (h0 : st.memsize 0 < 18446744073709551616)
    (hu : st.memused < 18446744073709551616) :
    (xrealloc st (some p) size ID false).1 = none ∧
    (xrealloc st (some p) size ID false).2.memsize = st.memsize ∧
    (xrealloc st (some p) size ID false).2.memptrs = st.memptrs ∧
    (xrealloc st (some p) size ID false).2.memused = st.memused ∧
    (xrealloc st (some p) size ID false).2.memptrused = st.memptrused := by
  have hchk : xmemcheckOk st p = true := by
    unfold xmemcheckOk
    rw [hp]
    exact decide_eq_true hid
  have hres : xrealloc st (some p) size ID false =
      (none, update_mem_stats_add (update_mem_stats_remove st oldID oldSize) oldID oldSize) := by
    unfold xrealloc
    simp only [hp, hchk, hs, if_neg, if_false, Bool.true_eq_false, ite_false, ite_true,
      if_true]
  rw [hres]
  have hrest := stats_remove_add_restore st oldID oldSize h1 h0 hu
  exact ⟨rfl, hrest.1, hrest.2.1, hrest.2.2.1, hrest.2.2.2⟩

/-- C10 witness: the theorem applied to a small concrete allocator state
holding one tracked 40-byte block of area 3 at pointer 0. -/
theorem xrealloc_fail_restores_witness :
    (xrealloc memW (some 0) 7 5 false).1 = none ∧
    (xrealloc memW (some 0) 7 5 false).2.memsize = memW.memsize ∧
    (xrealloc memW (some 0) 7 5 false).2.memptrs = memW.memptrs ∧
    (xrealloc memW (some 0) 7 5 false).2.memused = memW.memused ∧
    (xrealloc memW (some 0) 7 5 false).2.memptrused = memW.memptrused :=
  xrealloc_fail_restores memW 0 7 5 3 40 (by rfl) (by decide) (by decide)
    (by decide) (by decide) (by decide)

/-! ## Unlink and eviction lemmas -/

theorem realizes_cons_inv {ent : Nat → Entry} {h : Nat} {l : List Nat}
    (hr : Realizes ent (some h) l) :
    ∃ rest, l = h :: rest ∧ Realizes ent (ent h).hnext rest := by
  rcases realizes_some_inv hr with ⟨heq, _⟩ | ⟨x, rest, hx, hl, hsub⟩
  · simp at heq
  · injection hx with hx'
    subst hx'
    exact ⟨rest, hl, hsub⟩

theorem unlinkChain_succ_none {ent : Nat → Entry} {v cur n : Nat}
    (h : (ent cur).hnext = none) : unlinkChain ent v cur (n + 1) = ent := by
  simp only [unlinkChain, h]

theorem unlinkChain_succ_some_eq {ent : Nat → Entry} {v cur n nxt : Nat}
    (h : (ent cur).hnext = some nxt) (he : nxt = v) :
    unlinkChain ent v cur (n + 1) =
      Function.update ent cur { ent cur with hnext := (ent v).hnext } := by
  simp only [unlinkChain, h]
  rw [if_pos he]

theorem unlinkChain_succ_some_ne {ent : Nat → Entry} {v cur n nxt : Nat}
    (h : (ent cur).hnext = some nxt) (he : nxt ≠ v) :
    unlinkChain ent v cur (n + 1) = unlinkChain ent v nxt n := by
  simp only [unlinkChain, h]
  rw [if_neg he]

theorem unlinkChain_meta (ent : Nat → Entry) (v : Nat) : ∀ (fuel cur s : Nat),
    ((unlinkChain ent v cur fuel) s).desc = (ent s).desc ∧
    ((unlinkChain ent v cur fuel) s).surface = (ent s).surface ∧
    ((unlinkChain ent v cur fuel) s).used = (ent s).used := by
  intro fuel
  induction fuel with
  | zero => intro cur s; exact ⟨rfl, rfl, rfl⟩
  | succ n ih =>
    intro cur s
    cases hnx : (ent cur).hnext with
    | none =>
      rw [unlinkChain_succ_none hnx]
      exact ⟨rfl, rfl, rfl⟩
    | some nxt =>
      by_cases hv : nxt = v
      · rw [unlinkChain_succ_some_eq hnx hv]
        by_cases hs : s = cur
        · subst hs
          simp [Function.update_same]
        · simp [Function.update_noteq hs]
      · rw [unlinkChain_succ_some_ne hnx hv]
        exact ih nxt s

theorem unlinkChain_spec {ent : Nat → Entry} {v : Nat} :
    ∀ (fuel h : Nat) (l : List Nat), Realizes ent (some h) l → v ∈ l → v ≠ h →
    l.length ≤ fuel →
    (∃ p, p ∈ l ∧ p ≠ v ∧
      unlinkChain ent v h fuel = Function.update ent p { ent p with hnext := (ent v).hnext }) ∧
    Realizes (unlinkChain ent v h fuel) (some h) (l.erase v) := by
  intro fuel
  induction fuel with
  | zero =>
    intro h l hreal hv hvh hlen
    cases l with
    | nil => cases hv
    | cons a t => simp at hlen
  | succ n ih =>
    intro h l hreal hv hvh hlen
    obtain ⟨rest, hl, hsub⟩ := realizes_cons_inv hreal
    subst hl
    have hnd : (h :: rest).Nodup := realizes_nodup hreal
    have hvrest : v ∈ rest := by
      rcases List.mem_cons.mp hv with h1 | h1
      · exact absurd h1 hvh
      · exact h1
    rcases realizes_some_inv hsub with ⟨hnone, hre⟩ | ⟨h2, rest2, hnx, hrest, hsub2⟩
    · subst hre; cases hvrest
    · subst hrest
      have hne : h ≠ v := Ne.symm hvh
      have hhmem : h ∉ h2 :: rest2 := (List.nodup_cons.mp hnd).1
      by_cases hh2 : h2 = v
      · have hunf := unlinkChain_succ_some_eq (n := n) hnx hh2
        have herase : (h :: h2 :: rest2).erase v = h :: rest2 := by
          rw [hh2, List.erase_cons_tail (by simp [hne]), List.erase_cons_head]
        constructor
        · exact ⟨h, by simp, hne, hunf⟩
        · rw [hunf, herase]
          refine Realizes.cons ?_
          have hproj : ((Function.update ent h { ent h with hnext := (ent v).hnext }) h).hnext =
              (ent v).hnext := by
            simp [Function.update_same]
          rw [hproj]
          rw [hh2] at hsub2
          refine realizes_frame hsub2 ?_
          intro s hs
          have hsh : s ≠ h := by
            intro he
            subst he
            exact hhmem (List.mem_cons_of_mem _ hs)
          exact Function.update_noteq hsh _ _
      · have hvh2 : v ≠ h2 := fun he => hh2 he.symm
        have hsub2c : Realizes ent (some h2) (h2 :: rest2) := Realizes.cons hsub2
        have hlen2 : (h2 :: rest2).length ≤ n := by
          simp at hlen ⊢
          omega
        have hih := ih h2 (h2 :: rest2) hsub2c hvrest hvh2 hlen2
        obtain ⟨⟨p, hpmem, hpv, hpeq⟩, hreal2⟩ := hih
        have hunf := unlinkChain_succ_some_ne (n := n) hnx hh2
        have herase : (h :: h2 :: rest2).erase v = h :: (h2 :: rest2).erase v := by
          rw [List.erase_cons_tail (by simp [hne])]
        constructor
        · exact ⟨p, List.mem_cons_of_mem _ hpmem, hpv, by rw [hunf, hpeq]⟩
        · rw [hunf, herase]
          refine Realizes.cons ?_
          have hhp : h ≠ p := fun he => hhmem (he ▸ hpmem)
          have hent : unlinkChain ent v h2 n h = ent h := by
            rw [hpeq]
            exact Function.update_noteq hhp _ _
          rw [hent, hnx]
          exact hreal2

theorem evictUnlink_cases (cfg : Config) (st : CacheState) (v : Nat) :
    (st.buckets (hashDesc cfg (st.entries v).desc) = none ∧ evictUnlink cfg st v = st) ∨
    (∃ hd, st.buckets (hashDesc cfg (st.entries v).desc) = some hd ∧
      ((hd = v ∧ evictUnlink cfg st v =
        { st with
          buckets := Function.update st.buckets (hashDesc cfg (st.entries v).desc)
            (st.entries v).hnext }) ∨
       (hd ≠ v ∧ evictUnlink cfg st v =
        { st with entries := unlinkChain st.entries v hd cfg.cacheCapacity }))) := by
  cases hb : st.buckets (hashDesc cfg (st.entries v).desc) with
  | none =>
    refine Or.inl ⟨rfl, ?_⟩
    simp only [evictUnlink, hb]
  | some hd =>
    by_cases hv : hd = v
    · refine Or.inr ⟨hd, rfl, Or.inl ⟨hv, ?_⟩⟩
      simp only [evictUnlink, hb]
      rw [if_pos hv]
    · refine Or.inr ⟨hd, rfl, Or.inr ⟨hv, ?_⟩⟩
      simp only [evictUnlink, hb]
      rw [if_neg hv]


theorem evictCore_eq (cfg : Config) (st : CacheState) (v : Nat) :
    evictCore cfg st v =
      { evictUnlink cfg st v with
        entries := Function.update (evictUnlink cfg st v).entries v
          { (evictUnlink cfg st v).entries v with used := false, hnext := none }
        released := (st.entries v).surface :: (evictUnlink cfg st v).released } := rfl

theorem evictUnlink_released (cfg : Config) (st : CacheState) (v : Nat) :
    (evictUnlink cfg st v).released = st.released := by
  rcases evictUnlink_cases cfg st v with ⟨_, hunl⟩ | ⟨hd, _, hcase⟩
  · rw [hunl]
  · rcases hcase with ⟨_, hunl⟩ | ⟨_, hunl⟩ <;> rw [hunl]

theorem evictCore_released (cfg : Config) (st : CacheState) (v : Nat) :
    (evictCore cfg st v).released = (st.entries v).surface :: st.released := by
  rw [evictCore_eq]
  show (st.entries v).surface :: (evictUnlink cfg st v).released =
    (st.entries v).surface :: st.released
  rw [evictUnlink_released]

theorem wfx_of_facts {cfg : Config} {st st2 : CacheState} {v : Nat} (hwf : WF cfg st)
    (hv : v < cfg.cacheCapacity) (hu : (st.entries v).used = true)
    (hdesc : ∀ s, (st2.entries s).desc = (st.entries s).desc)
    (hsurf : ∀ s, (st2.entries s).surface = (st.entries s).surface)
    (hused : ∀ s, s ≠ v → (st2.entries s).used = (st.entries s).used)
    (hvused : (st2.entries v).used = false)
    (hfree : st2.freeSlots = st.freeSlots)
    (hrel : st2.released = (st.entries v).surface :: st.released)
    (hnh : st2.nextHandle = st.nextHandle)
    (hchain : ∀ b, ∃ ln lo, Realizes st2.entries (st2.buckets b) ln ∧
      Realizes st.entries (st.buckets b) lo ∧ (∀ s, s ∈ ln → s ∈ lo) ∧ v ∉ ln ∧
      (∀ s, s ∈ lo → s ≠ v → s ∈ ln)) :
    WFx cfg st2 v := by
  have husedx : ∀ s, s ≠ v → (st2.entries s).used = true → (st.entries s).used = true := by
    intro s hsv hsu
    rw [← hused s hsv]
    exact hsu
  have hneq : ∀ s, (st2.entries s).used = true → s ≠ v := by
    intro s hsu he
    subst he
    rw [hvused] at hsu
    cases hsu
  refine ⟨?_, ?_, ?_, ?_, ?_, ?_, ?_, ?_, ?_, ?_, ?_, ?_, ?_, ?_, ?_, ?_⟩
  · intro b
    obtain ⟨ln, lo, h1, h2, hsub, hvn, hback⟩ := hchain b
    exact ⟨ln, h1⟩
  · intro b l hr s hs
    obtain ⟨ln, lo, h1, h2, hsub, hvn, hback⟩ := hchain b
    rw [realizes_det hr h1] at hs
    have hso := hsub s hs
    obtain ⟨hlt, huso, hhash⟩ := hwf.chainMem b lo h2 s hso
    have hsv : s ≠ v := fun he => hvn (he ▸ hs)
    refine ⟨hlt, ?_, ?_⟩
    · rw [hused s hsv]
      exact huso
    · rw [hdesc s]
      exact hhash
  · intro b b' l l' hne hr hr' s hs hs'
    obtain ⟨ln, lo, h1, h2, hsub, hvn, hback⟩ := hchain b
    obtain ⟨ln', lo', h1', h2', hsub', hvn', hback'⟩ := hchain b'
    rw [realizes_det hr h1] at hs
    rw [realizes_det hr' h1'] at hs'
    exact hwf.chainDisj b b' lo lo' hne h2 h2' s (hsub s hs) (hsub' s hs')
  · intro s hs hsu l hr
    have hsv : s ≠ v := hneq s hsu
    have hdd : hashDesc cfg (st2.entries s).desc = hashDesc cfg (st.entries s).desc := by
      rw [hdesc s]
    obtain ⟨ln, lo, h1, h2, hsub, hvn, hback⟩ := hchain (hashDesc cfg (st2.entries s).desc)
    rw [realizes_det hr h1]
    have hso : s ∈ lo := by
      apply hwf.usedChain s hs (husedx s hsv hsu) lo
      rw [← hdd]
      exact h2
    exact hback s hso hsv
  · intro s hsf
    rw [hfree] at hsf
    exact hwf.freeLt s hsf
  · intro s hsf
    rw [hfree] at hsf
    by_cases hsv : s = v
    · subst hsv
      exact hvused
    · rw [hused s hsv]
      exact hwf.freeUnused s hsf
  · intro s hs hsu
    by_cases hsv : s = v
    · exact Or.inr hsv
    · refine Or.inl ?_
      rw [hfree]
      apply hwf.unusedFree s hs
      rw [← hused s hsv]
      exact hsu
  · rw [hfree]
    exact hwf.freeNodup
  · intro s hs hsu
    rw [hnh, hsurf s]
    exact hwf.handleLt s hs (husedx s (hneq s hsu) hsu)
  · intro hdl hh
    rw [hrel] at hh
    rw [hnh]
    rcases List.mem_cons.mp hh with he | hh2
    · rw [he]
      exact hwf.handleLt v hv hu
    · exact hwf.relLt hdl hh2
  · rw [hrel]
    exact List.nodup_cons.mpr ⟨hwf.usedNotRel v hv hu, hwf.relNodup⟩
  · intro s hs hsu hmem
    have hsv : s ≠ v := hneq s hsu
    rw [hrel, hsurf s] at hmem
    rcases List.mem_cons.mp hmem with he | hmem2
    · exact hsv (hwf.handleInj s v hs hv (husedx s hsv hsu) hu he)
    · exact hwf.usedNotRel s hs (husedx s hsv hsu) hmem2
  · intro s t hs ht hsu htu heq
    rw [hsurf s, hsurf t] at heq
    exact hwf.handleInj s t hs ht (husedx s (hneq s hsu) hsu) (husedx t (hneq t htu) htu) heq
  · exact hv
  · exact hvused
  · rw [hfree]
    intro hmem
    have hfb := hwf.freeUnused v hmem
    rw [hu] at hfb
    cases hfb

theorem evictCore_wfx {cfg : Config} {st : CacheState} {v : Nat} (hwf : WF cfg st)
    (hv : v < cfg.cacheCapacity) (hu : (st.entries v).used = true) :
    WFx cfg (evictCore cfg st v) v := by
  obtain ⟨lb, hlbB⟩ := hwf.chainEx (hashDesc cfg (st.entries v).desc)
  have hvin : v ∈ lb := hwf.usedChain v hv hu lb hlbB
  rcases evictUnlink_cases cfg st v with ⟨hbnone, hunl⟩ | ⟨hd, hbsome, hcase⟩
  · rw [hbnone] at hlbB
    rcases realizes_some_inv hlbB with ⟨_, hle⟩ | ⟨x, rest, hx, _, _⟩
    · subst hle
      cases hvin
    · simp at hx
  · have hlbS := hlbB
    rw [hbsome] at hlbS
    obtain ⟨rest, hl, hsub⟩ := realizes_cons_inv hlbS
    subst hl
    have hnd : (hd :: rest).Nodup := realizes_nodup hlbB
    rcases hcase with ⟨hdv, hunl⟩ | ⟨hdv, hunl⟩
    · -- victim is the chain head: bucket table is updated
      have hev : evictCore cfg st v =
          { st with
            buckets := Function.update st.buckets (hashDesc cfg (st.entries v).desc)
              (st.entries v).hnext
            entries := Function.update st.entries v
              { st.entries v with used := false, hnext := none }
            released := (st.entries v).surface :: st.released } := by
        rw [evictCore_eq, hunl]
      have hEnt : (evictCore cfg st v).entries =
          Function.update st.entries v { st.entries v with used := false, hnext := none } := by
        rw [hev]
      have hBuck : (evictCore cfg st v).buckets =
          Function.update st.buckets (hashDesc cfg (st.entries v).desc) (st.entries v).hnext := by
        rw [hev]
      have hFree : (evictCore cfg st v).freeSlots = st.freeSlots := by rw [hev]
      have hRel : (evictCore cfg st v).released = (st.entries v).surface :: st.released := by
        rw [hev]
      have hNh : (evictCore cfg st v).nextHandle = st.nextHandle := by rw [hev]
      have hhd : hd ∉ rest := (List.nodup_cons.mp hnd).1
      have hvrest : v ∉ rest := by
        rw [← hdv]
        exact hhd
      have hsubv : Realizes st.entries (st.entries v).hnext rest := by
        rw [← hdv]
        exact hsub
      refine wfx_of_facts hwf hv hu ?_ ?_ ?_ ?_ hFree hRel hNh ?_
      · intro s
        rw [hEnt]
        by_cases hsv : s = v
        · subst hsv
          rw [Function.update_same]
        · rw [Function.update_noteq hsv]
      · intro s
        rw [hEnt]
        by_cases hsv : s = v
        · subst hsv
          rw [Function.update_same]
        · rw [Function.update_noteq hsv]
      · intro s hsv
        rw [hEnt, Function.update_noteq hsv]
      · rw [hEnt, Function.update_same]
      · intro b2
        by_cases hbb : b2 = hashDesc cfg (st.entries v).desc
        · subst hbb
          refine ⟨rest, hd :: rest, ?_, hlbB, fun s hs => List.mem_cons_of_mem _ hs, hvrest, ?_⟩
          · rw [hEnt, hBuck, Function.update_same]
            exact realizes_frame hsubv
              (fun s hs => Function.update_noteq (ne_of_mem_of_not_mem hs hvrest) _ _)
          · intro s hs hsv
            rcases List.mem_cons.mp hs with he | h2
            · exact absurd (he.trans hdv) hsv
            · exact h2
        · obtain ⟨lo, hlo⟩ := hwf.chainEx b2
          have hvno : v ∉ lo := by
            intro hvlo
            exact hwf.chainDisj (hashDesc cfg (st.entries v).desc) b2 (hd :: rest) lo
              (fun he => hbb he.symm) hlbB hlo v hvin hvlo
          refine ⟨lo, lo, ?_, hlo, fun s hs => hs, hvno, fun s hs _ => hs⟩
          rw [hEnt, hBuck, Function.update_noteq hbb]
          exact realizes_frame hlo
            (fun s hs => Function.update_noteq (ne_of_mem_of_not_mem hs hvno) _ _)
    · -- victim is a mid/tail node: the predecessor's chain pointer is updated
      have hvhd : v ≠ hd := fun he => hdv he.symm
      have hmemlt : ∀ s, s ∈ hd :: rest → s < cfg.cacheCapacity :=
        fun s hs => (hwf.chainMem _ _ hlbB s hs).1
      have hlen : (hd :: rest).length ≤ cfg.cacheCapacity := nodup_lt_length_le hnd hmemlt
      obtain ⟨⟨p, hpmem, hpv, hpeq⟩, hreal2⟩ :=
        unlinkChain_spec cfg.cacheCapacity hd (hd :: rest) hlbS hvin hvhd hlen
      have hev : evictCore cfg st v =
          { st with
            entries := Function.update (unlinkChain st.entries v hd cfg.cacheCapacity) v
              { (unlinkChain st.entries v hd cfg.cacheCapacity) v with
                used := false, hnext := none }
            released := (st.entries v).surface :: st.released } := by
        rw [evictCore_eq, hunl]
      have hEnt : (evictCore cfg st v).entries =
          Function.update (unlinkChain st.entries v hd cfg.cacheCapacity) v
            { (unlinkChain st.entries v hd cfg.cacheCapacity) v with
              used := false, hnext := none } := by
        rw [hev]
      have hBuck : (evictCore cfg st v).buckets = st.buckets := by rw [hev]
      have hFree : (evictCore cfg st v).freeSlots = st.freeSlots := by rw [hev]
      have hRel : (evictCore cfg st v).released = (st.entries v).surface :: st.released := by
        rw [hev]
      have hNh : (evictCore cfg st v).nextHandle = st.nextHandle := by rw [hev]
      have hmeta := unlinkChain_meta st.entries v cfg.cacheCapacity hd
      refine wfx_of_facts hwf hv hu ?_ ?_ ?_ ?_ hFree hRel hNh ?_
      · intro s
        rw [hEnt]
        by_cases hsv : s = v
        · rw [hsv, Function.update_same]
          exact (unlinkChain_meta st.entries v cfg.cacheCapacity hd v).1
        · rw [Function.update_noteq hsv]
          exact (unlinkChain_meta st.entries v cfg.cacheCapacity hd s).1
      · intro s
        rw [hEnt]
        by_cases hsv : s = v
        · rw [hsv, Function.update_same]
          exact (unlinkChain_meta st.entries v cfg.cacheCapacity hd v).2.1
        · rw [Function.update_noteq hsv]
          exact (unlinkChain_meta st.entries v cfg.cacheCapacity hd s).2.1
      · intro s hsv
        rw [hEnt, Function.update_noteq hsv]
        exact (unlinkChain_meta st.entries v cfg.cacheCapacity hd s).2.2
      · rw [hEnt, Function.update_same]
      · intro b2
        by_cases hbb : b2 = hashDesc cfg (st.entries v).desc
        · subst hbb
          have hvner : v ∉ (hd :: rest).erase v := by
            intro hmem2
            exact ((List.Nodup.mem_erase_iff hnd).mp hmem2).1 rfl
          refine ⟨(hd :: rest).erase v, hd :: rest, ?_, hlbB,
            fun s hs => List.erase_subset _ _ hs, hvner, ?_⟩
          · rw [hEnt, hBuck, hbsome]
            exact realizes_frame hreal2
              (fun s hs => Function.update_noteq (ne_of_mem_of_not_mem hs hvner) _ _)
          · intro s hs hsv
            exact (List.Nodup.mem_erase_iff hnd).mpr ⟨hsv, hs⟩
        · obtain ⟨lo, hlo⟩ := hwf.chainEx b2
          have hbne : hashDesc cfg (st.entries v).desc ≠ b2 := fun he => hbb he.symm
          have hdisj : ∀ s, s ∈ hd :: rest → s ∉ lo :=
            fun s hs => hwf.chainDisj _ b2 _ lo hbne hlbB hlo s hs
          have hvno : v ∉ lo := hdisj v hvin
          have hpno : p ∉ lo := hdisj p hpmem
          refine ⟨lo, lo, ?_, hlo, fun s hs => hs, hvno, fun s hs _ => hs⟩
          rw [hEnt, hBuck]
          refine realizes_frame hlo ?_
          intro s hs
          have hsv : s ≠ v := ne_of_mem_of_not_mem hs hvno
          have hsp : s ≠ p := ne_of_mem_of_not_mem hs hpno
          rw [Function.update_noteq hsv, hpeq, Function.update_noteq hsp]

theorem acquireSlot_cons (cfg : Config) (st : CacheState) (s0 : Nat) (rest : List Nat)
    (hfs : st.freeSlots = s0 :: rest) :
    acquireSlot cfg st = some (s0, { st with freeSlots := rest }) := by
  simp only [acquireSlot, hfs]

theorem acquireSlot_nil_zero (cfg : Config) (st : CacheState)
    (hfs : st.freeSlots = []) (hcap : cfg.cacheCapacity = 0) :
    acquireSlot cfg st = none := by
  simp only [acquireSlot, hfs]
  rw [if_pos hcap]

theorem acquireSlot_nil_evict (cfg : Config) (st : CacheState)
    (hfs : st.freeSlots = []) (hcap : cfg.cacheCapacity ≠ 0) :
    acquireSlot cfg st = some (st.ringPos % cfg.cacheCapacity,
      { evictCore cfg st (st.ringPos % cfg.cacheCapacity) with ringPos := st.ringPos + 1 }) := by
  simp only [acquireSlot, hfs]
  rw [if_neg hcap]

theorem wfx_ring (cfg : Config) (st : CacheState) (v r : Nat) (hw : WFx cfg st v) :
    WFx cfg { st with ringPos := r } v :=
  ⟨hw.chainEx, hw.chainMem, hw.chainDisj, hw.usedChain, hw.freeLt, hw.freeUnused,
    hw.unusedFree, hw.freeNodup, hw.handleLt, hw.relLt, hw.relNodup, hw.usedNotRel,
    hw.handleInj, hw.vLt, hw.vUnused, hw.vNotFree⟩

theorem acquireSlot_wfx {cfg : Config} {st st1 : CacheState} {s : Nat} (hwf : WF cfg st)
    (h : acquireSlot cfg st = some (s, st1)) : WFx cfg st1 s := by
  cases hfs : st.freeSlots with
  | cons s0 rest =>
    rw [acquireSlot_cons cfg st s0 rest hfs] at h
    injection h with h2
    injection h2 with ha hb
    subst ha
    subst hb
    have hnd := hwf.freeNodup
    rw [hfs] at hnd
    refine ⟨hwf.chainEx, hwf.chainMem, hwf.chainDisj, hwf.usedChain, ?_, ?_, ?_, ?_,
      hwf.handleLt, hwf.relLt, hwf.relNodup, hwf.usedNotRel, hwf.handleInj, ?_, ?_, ?_⟩
    · intro t ht
      exact hwf.freeLt t (by rw [hfs]; exact List.mem_cons_of_mem _ ht)
    · intro t ht
      exact hwf.freeUnused t (by rw [hfs]; exact List.mem_cons_of_mem _ ht)
    · intro t htl htu
      have := hwf.unusedFree t htl htu
      rw [hfs] at this
      rcases List.mem_cons.mp this with he | hr
      · exact Or.inr he
      · exact Or.inl hr
    · exact (List.nodup_cons.mp hnd).2
    · exact hwf.freeLt s0 (by rw [hfs]; exact List.mem_cons_self _ _)
    · exact hwf.freeUnused s0 (by rw [hfs]; exact List.mem_cons_self _ _)
    · exact (List.nodup_cons.mp hnd).1
  | nil =>
    by_cases hcap : cfg.cacheCapacity = 0
    · rw [acquireSlot_nil_zero cfg st hfs hcap] at h
      cases h
    · rw [acquireSlot_nil_evict cfg st hfs hcap] at h
      injection h with h2
      injection h2 with ha hb
      subst ha
      subst hb
      have hvlt : st.ringPos % cfg.cacheCapacity < cfg.cacheCapacity :=
        Nat.mod_lt _ (Nat.pos_of_ne_zero hcap)
      have hvused : (st.entries (st.ringPos % cfg.cacheCapacity)).used = true := by
        cases hbe : (st.entries (st.ringPos % cfg.cacheCapacity)).used with
        | false =>
          have := hwf.unusedFree _ hvlt hbe
          rw [hfs] at this
          cases this
        | true => rfl
      exact wfx_ring cfg _ _ _ (evictCore_wfx hwf hvlt hvused)

theorem insert_wf {cfg : Config} {st1 st2 : CacheState} {s : Nat} {d : Descriptor}
    (hw : WFx cfg st1 s)
    (hE : st2.entries = Function.update st1.entries s
      { desc := d, surface := st1.nextHandle
        hnext := st1.buckets (hashDesc cfg d), used := true })
    (hB : st2.buckets = Function.update st1.buckets (hashDesc cfg d) (some s))
    (hF : st2.freeSlots = st1.freeSlots)
    (hR : st2.released = st1.released)
    (hN : st2.nextHandle = st1.nextHandle + 1) :
    WF cfg st2 := by
  have hsnot : ∀ b2 l, Realizes st1.entries (st1.buckets b2) l → s ∉ l := by
    intro b2 l hr hsl
    have hus := (hw.chainMem b2 l hr s hsl).2.1
    rw [hw.vUnused] at hus
    cases hus
  have hentne : ∀ t, t ≠ s → st2.entries t = st1.entries t := by
    intro t ht
    rw [hE]
    exact Function.update_noteq ht _ _
  have hents : st2.entries s =
      { desc := d, surface := st1.nextHandle
        hnext := st1.buckets (hashDesc cfg d), used := true } := by
    rw [hE]
    exact Function.update_same _ _ _
  have hused2 : (st2.entries s).used = true := by rw [hents]
  have hdesc2 : (st2.entries s).desc = d := by rw [hents]
  have hsurf2 : (st2.entries s).surface = st1.nextHandle := by rw [hents]
  have husedeq : ∀ t, t ≠ s → (st2.entries t).used = (st1.entries t).used :=
    fun t ht => by rw [hentne t ht]
  have hchain2 : ∀ b2, ∃ ln lo,
      Realizes st2.entries (st2.buckets b2) ln ∧
      Realizes st1.entries (st1.buckets b2) lo ∧
      ((b2 = hashDesc cfg d ∧ ln = s :: lo) ∨ (b2 ≠ hashDesc cfg d ∧ ln = lo)) := by
    intro b2
    obtain ⟨lo, hlo⟩ := hw.chainEx b2
    have hfr : Realizes st2.entries (st1.buckets b2) lo :=
      realizes_frame hlo (fun t ht => hentne t (ne_of_mem_of_not_mem ht (hsnot b2 lo hlo)))
    by_cases hbb : b2 = hashDesc cfg d
    · refine ⟨s :: lo, lo, ?_, hlo, Or.inl ⟨hbb, rfl⟩⟩
      rw [hB, hbb, Function.update_same]
      refine Realizes.cons ?_
      have hpr : (st2.entries s).hnext = st1.buckets (hashDesc cfg d) := by rw [hents]
      rw [hpr, ← hbb]
      exact hfr
    · refine ⟨lo, lo, ?_, hlo, Or.inr ⟨hbb, rfl⟩⟩
      rw [hB, Function.update_noteq hbb]
      exact hfr
  refine ⟨?_, ?_, ?_, ?_, ?_, ?_, ?_, ?_, ?_, ?_, ?_, ?_, ?_⟩
  · intro b2
    obtain ⟨ln, lo, h1, h2, hcase⟩ := hchain2 b2
    exact ⟨ln, h1⟩
  · intro b2 l hr t ht
    obtain ⟨ln, lo, h1, h2, hcase⟩ := hchain2 b2
    rw [realizes_det hr h1] at ht
    rcases hcase with ⟨hbb, hln⟩ | ⟨hbb, hln⟩
    · subst hln
      rcases List.mem_cons.mp ht with hts | htlo
      · subst hts
        refine ⟨hw.vLt, hused2, ?_⟩
        rw [hdesc2, hbb]
      · have htns : t ≠ s := ne_of_mem_of_not_mem htlo (hsnot b2 lo h2)
        obtain ⟨hlt, hus, hhash⟩ := hw.chainMem b2 lo h2 t htlo
        refine ⟨hlt, ?_, ?_⟩
        · rw [husedeq t htns]
          exact hus
        · rw [hentne t htns]
          exact hhash
    · rw [hln] at ht
      have htns : t ≠ s := ne_of_mem_of_not_mem ht (hsnot b2 lo h2)
      obtain ⟨hlt, hus, hhash⟩ := hw.chainMem b2 lo h2 t ht
      refine ⟨hlt, ?_, ?_⟩
      · rw [husedeq t htns]
        exact hus
      · rw [hentne t htns]
        exact hhash
  · intro b2 b3 l l' hne hr hr' t ht ht'
    obtain ⟨ln, lo, h1, h2, hcase⟩ := hchain2 b2
    obtain ⟨ln', lo', h1', h2', hcase'⟩ := hchain2 b3
    rw [realizes_det hr h1] at ht
    rw [realizes_det hr' h1'] at ht'
    have hmain : ∀ u, u ∈ lo → u ∉ lo' := hw.chainDisj b2 b3 lo lo' hne h2 h2'
    rcases hcase with ⟨hbb, hln⟩ | ⟨hbb, hln⟩ <;> rcases hcase' with ⟨hbb', hln'⟩ | ⟨hbb', hln'⟩
    · exact absurd (hbb.trans hbb'.symm) hne
    · rw [hln] at ht
      rw [hln'] at ht'
      rcases List.mem_cons.mp ht with hts | htlo
      · subst hts
        exact hsnot b3 lo' h2' ht'
      · exact hmain t htlo ht'
    · rw [hln] at ht
      rw [hln'] at ht'
      rcases List.mem_cons.mp ht' with hts | htlo'
      · subst hts
        exact hsnot b2 lo h2 ht
      · exact hmain t ht htlo'
    · rw [hln] at ht
      rw [hln'] at ht'
      exact hmain t ht ht'
  · intro t htl htu l hr
    by_cases hts : t = s
    · subst hts
      obtain ⟨ln, lo, h1, h2, hcase⟩ := hchain2 (hashDesc cfg (st2.entries t).desc)
      rw [realizes_det hr h1]
      rcases hcase with ⟨hbb, hln⟩ | ⟨hbb, hln⟩
      · rw [hln]
        exact List.mem_cons_self _ _
      · have heq : hashDesc cfg (st2.entries t).desc = hashDesc cfg d := by rw [hdesc2]
        exact absurd heq hbb
    · have htu1 : (st1.entries t).used = true := by
        rw [← husedeq t hts]
        exact htu
      have hdd : (st2.entries t).desc = (st1.entries t).desc := by rw [hentne t hts]
      obtain ⟨ln, lo, h1, h2, hcase⟩ := hchain2 (hashDesc cfg (st2.entries t).desc)
      rw [realizes_det hr h1]
      have hmem1 : t ∈ lo := by
        apply hw.usedChain t htl htu1 lo
        rw [← hdd]
        exact h2
      rcases hcase with ⟨hbb, hln⟩ | ⟨hbb, hln⟩
      · rw [hln]
        exact List.mem_cons_of_mem _ hmem1
      · rw [hln]
        exact hmem1
  · intro t ht
    rw [hF] at ht
    exact hw.freeLt t ht
  · intro t ht
    rw [hF] at ht
    have htns : t ≠ s := by
      intro he
      subst he
      exact hw.vNotFree ht
    rw [husedeq t htns]
    exact hw.freeUnused t ht
  · intro t htl htu
    rw [hF]
    have htns : t ≠ s := by
      intro he
      subst he
      rw [hused2] at htu
      cases htu
    rcases hw.unusedFree t htl (by rw [← husedeq t htns]; exact htu) with hin | heq
    · exact hin
    · exact absurd heq htns
  · rw [hF]
    exact hw.freeNodup
  · intro t htl htu
    rw [hN]
    by_cases hts : t = s
    · subst hts
      rw [hsurf2]
      omega
    · have hlt := hw.handleLt t htl (by rw [← husedeq t hts]; exact htu)
      rw [hentne t hts]
      omega
  · intro hdl hh
    rw [hR] at hh
    rw [hN]
    have := hw.relLt hdl hh
    omega
  · rw [hR]
    exact hw.relNodup
  · intro t htl htu hmem
    rw [hR] at hmem
    by_cases hts : t = s
    · subst hts
      rw [hsurf2] at hmem
      have := hw.relLt _ hmem
      omega
    · rw [hentne t hts] at hmem
      exact hw.usedNotRel t htl (by rw [← husedeq t hts]; exact htu) hmem
  · intro t u htl hul htu huu heq
    by_cases hts : t = s <;> by_cases hus : u = s
    · rw [hts, hus]
    · exfalso
      subst hts
      rw [hsurf2] at heq
      rw [hentne u hus] at heq
      have := hw.handleLt u hul (by rw [← husedeq u hus]; exact huu)
      omega
    · exfalso
      subst hus
      rw [hsurf2] at heq
      rw [hentne t hts] at heq
      have := hw.handleLt t htl (by rw [← husedeq t hts]; exact htu)
      omega
    · rw [hentne t hts, hentne u hus] at heq
      exact hw.handleInj t u htl hul (by rw [← husedeq t hts]; exact htu)
        (by rw [← husedeq u hus]; exact huu) heq

theorem releaseBack_wf {cfg : Config} {st1 st2 : CacheState} {s : Nat} (hw : WFx cfg st1 s)
    (hE : st2.entries = st1.entries) (hB : st2.buckets = st1.buckets)
    (hF : st2.freeSlots = s :: st1.freeSlots) (hR : st2.released = st1.released)
    (hN : st2.nextHandle = st1.nextHandle) :
    WF cfg st2 := by
  refine ⟨?_, ?_, ?_, ?_, ?_, ?_, ?_, ?_, ?_, ?_, ?_, ?_, ?_⟩
  · intro b2
    rw [hE, hB]
    exact hw.chainEx b2
  · intro b2 l hr t ht
    rw [hE, hB] at hr
    rw [hE]
    exact hw.chainMem b2 l hr t ht
  · intro b2 b3 l l' hne hr hr'
    rw [hE, hB] at hr hr'
    exact hw.chainDisj b2 b3 l l' hne hr hr'
  · intro t htl htu l hr
    rw [hE] at htu
    rw [hE, hB] at hr
    exact hw.usedChain t htl htu l hr
  · intro t ht
    rw [hF] at ht
    rcases List.mem_cons.mp ht with he | hin
    · rw [he]
      exact hw.vLt
    · exact hw.freeLt t hin
  · intro t ht
    rw [hF] at ht
    rw [hE]
    rcases List.mem_cons.mp ht with he | hin
    · rw [he]
      exact hw.vUnused
    · exact hw.freeUnused t hin
  · intro t htl htu
    rw [hE] at htu
    rw [hF]
    rcases hw.unusedFree t htl htu with hin | heq
    · exact List.mem_cons_of_mem _ hin
    · rw [heq]
      exact List.mem_cons_self _ _
  · rw [hF]
    exact List.nodup_cons.mpr ⟨hw.vNotFree, hw.freeNodup⟩
  · intro t htl htu
    rw [hE] at htu
    rw [hE, hN]
    exact hw.handleLt t htl htu
  · intro hdl hh
    rw [hR] at hh
    rw [hN]
    exact hw.relLt hdl hh
  · rw [hR]
    exact hw.relNodup
  · intro t htl htu
    rw [hE] at htu
    rw [hE, hR]
    exact hw.usedNotRel t htl htu
  · intro t u htl hul htu huu heq
    rw [hE] at htu huu heq
    exact hw.handleInj t u htl hul htu huu heq

theorem realizes_none_nil {ent : Nat → Entry} {l : List Nat}
    (h : Realizes ent none l) : l = [] := by
  rcases realizes_some_inv h with ⟨_, hl⟩ | ⟨x, rest, hx, _, _⟩
  · exact hl
  · simp at hx

theorem init_wf (cfg : Config) : WF cfg (initState cfg) := by
  refine ⟨?_, ?_, ?_, ?_, ?_, ?_, ?_, ?_, ?_, ?_, ?_, ?_, ?_⟩
  · intro b
    exact ⟨[], Realizes.nil⟩
  · intro b l hr t ht
    rw [realizes_none_nil hr] at ht
    cases ht
  · intro b b' l l' hne hr hr' t ht
    rw [realizes_none_nil hr] at ht
    cases ht
  · intro t htl htu l hr
    exact Bool.noConfusion htu
  · intro t ht
    exact List.mem_range.mp ht
  · intro t ht
    rfl
  · intro t htl htu
    exact List.mem_range.mpr htl
  · exact List.nodup_range _
  · intro t htl htu
    exact Bool.noConfusion htu
  · intro hdl hh
    cases hh
  · exact List.nodup_nil
  · intro t htl htu
    exact Bool.noConfusion htu
  · intro t u htl hul htu huu heq
    exact Bool.noConfusion htu

theorem load_fatal_eq (cfg : Config) (st : CacheState) (d : Descriptor) (ok : Bool)
    (hf : find cfg st d = FindResult.fatal) : load cfg st d ok = (LoadResult.fatalErr, st) := by
  unfold load
  rw [hf]

theorem load_hit_eq (cfg : Config) (st : CacheState) (d : Descriptor) (ok : Bool) (i : Nat)
    (hf : find cfg st d = FindResult.hit i) : load cfg st d ok = (LoadResult.entry i, st) := by
  unfold load
  rw [hf]

theorem load_wf {cfg : Config} {st : CacheState} {d : Descriptor} {ok : Bool}
    (hwf : WF cfg st) : WF cfg (load cfg st d ok).2 := by
  cases hf : find cfg st d with
  | fatal =>
    rw [load_fatal_eq cfg st d ok hf]
    exact hwf
  | hit i =>
    rw [load_hit_eq cfg st d ok i hf]
    exact hwf
  | miss =>
    cases hacq : acquireSlot cfg st with
    | none =>
      rw [load_miss_none_eq cfg st d ok hf hacq]
      exact hwf
    | some pr =>
      obtain ⟨s, st1⟩ := pr
      have hw := acquireSlot_wfx hwf hacq
      cases ok with
      | true =>
        rw [load_miss_true_eq cfg st st1 d s hf hacq]
        exact insert_wf hw rfl rfl rfl rfl rfl
      | false =>
        rw [load_miss_false_eq cfg st st1 d s hf hacq]
        exact releaseBack_wf hw rfl rfl rfl rfl rfl

theorem reachable_wf {cfg : Config} {st : CacheState} (h : Reachable cfg st) : WF cfg st := by
  induction h with
  | init => exact init_wf cfg
  | step st' d ok hr ih => exact load_wf ih

/-- C4: in every reachable cache state each chain is duplicate-free and a
slot index appears in at most one bucket chain; and immediately after an
eviction the evicted entry's former bucket chain no longer references
its old slot index — covering both the chain-head victim (bucket table
updated) and the mid/tail victim (predecessor pointer updated), which
are the two branches of the unlink step. -/
theorem slot_in_one_chain (cfg : Config) (st : CacheState) (hr : Reachable cfg st) :
    (∀ b l, Realizes st.entries (st.buckets b) l → l.Nodup) ∧
    (∀ b b' l l' s, Realizes st.entries (st.buckets b) l →
      Realizes st.entries (st.buckets b') l' → s ∈ l → s ∈ l' → b = b') ∧
    (∀ v, v < cfg.cacheCapacity → (st.entries v).used = true →
      ∀ l, Realizes (evictCore cfg st v).entries
        ((evictCore cfg st v).buckets (hashDesc cfg (st.entries v).desc)) l → v ∉ l) := by
  have hwf := reachable_wf hr
  refine ⟨?_, ?_, ?_⟩
  · intro b l hrl
    exact realizes_nodup hrl
  · intro b b' l l' s hrl hrl' hs hs'
    by_contra hne
    exact hwf.chainDisj b b' l l' hne hrl hrl' s hs hs'
  · intro v hv hu l hrl hvl
    have hwx := evictCore_wfx hwf hv hu
    have hused := (hwx.chainMem _ l hrl v hvl).2.1
    rw [hwx.vUnused] at hused
    cases hused

/-- C4 witness: the theorem applied to the reachable state obtained by
loading one descriptor into the fresh small cache. -/
theorem slot_in_one_chain_witness :
    (∀ b l, Realizes stOne.entries (stOne.buckets b) l → l.Nodup) ∧
    (∀ b b' l l' s, Realizes stOne.entries (stOne.buckets b) l →
      Realizes stOne.entries (stOne.buckets b') l' → s ∈ l → s ∈ l' → b = b') ∧
    (∀ v, v < cfg0.cacheCapacity → (stOne.entries v).used = true →
      ∀ l, Realizes (evictCore cfg0 stOne v).entries
        ((evictCore cfg0 stOne v).buckets (hashDesc cfg0 (stOne.entries v).desc)) l →
        v ∉ l) :=
  slot_in_one_chain cfg0 stOne (Reachable.step (initState cfg0) dA true Reachable.init)

/-- C5: over any reachable sequence of cache operations the release trace
is duplicate-free — no surface handle is ever passed to the backend's
release call twice — and evicting a live entry releases that entry's
handle exactly once. -/
theorem release_exactly_once (cfg : Config) (st : CacheState) (hr : Reachable cfg st) :
    st.released.Nodup ∧
    (∀ v, v < cfg.cacheCapacity → (st.entries v).used = true →
      List.count ((st.entries v).surface) (evictCore cfg st v).released = 1) := by
  have hwf := reachable_wf hr
  refine ⟨hwf.relNodup, ?_⟩
  intro v hv hu
  rw [evictCore_released]
  rw [List.count_cons_self]
  have hzero : List.count ((st.entries v).surface) st.released = 0 :=
    List.count_eq_zero.mpr (hwf.usedNotRel v hv hu)
  rw [hzero]

/-- C5 witness: the theorem applied to the reachable one-entry state,
evicting its only live slot. -/
theorem release_exactly_once_witness :
    List.count ((stOne.entries 0).surface) (evictCore cfg0 stOne 0).released = 1 :=
  (release_exactly_once cfg0 stOne
    (Reachable.step (initState cfg0) dA true Reachable.init)).2 0 (by decide) (by rfl)

/-! ## Live-entry counting -/

theorem liveCount_le (cfg : Config) (st : CacheState) :
    liveCount cfg st ≤ cfg.cacheCapacity := by
  unfold liveCount
  calc ((Finset.range cfg.cacheCapacity).filter fun s => (st.entries s).used = true).card
      ≤ (Finset.range cfg.cacheCapacity).card := Finset.card_filter_le _ _
    _ = cfg.cacheCapacity := Finset.card_range _

theorem liveCount_congr {cfg : Config} {st st' : CacheState}
    (h : ∀ s, s < cfg.cacheCapacity → (st'.entries s).used = (st.entries s).used) :
    liveCount cfg st' = liveCount cfg st := by
  unfold liveCount
  congr 1
  apply Finset.filter_congr
  intro x hx
  rw [h x (Finset.mem_range.mp hx)]

theorem liveCount_succ {cfg : Config} {st st' : CacheState} {s : Nat}
    (hs : s < cfg.cacheCapacity)
    (hu : (st.entries s).used = false) (hu' : (st'.entries s).used = true)
    (h : ∀ t, t < cfg.cacheCapacity → t ≠ s → (st'.entries t).used = (st.entries t).used) :
    liveCount cfg st' = liveCount cfg st + 1 := by
  unfold liveCount
  have hset : ((Finset.range cfg.cacheCapacity).filter fun t => (st'.entries t).used = true) =
      insert s ((Finset.range cfg.cacheCapacity).filter fun t => (st.entries t).used = true) := by
    ext x
    simp only [Finset.mem_insert, Finset.mem_filter, Finset.mem_range]
    constructor
    · rintro ⟨hxr, hxu⟩
      by_cases hxs : x = s
      · exact Or.inl hxs
      · refine Or.inr ⟨hxr, ?_⟩
        rw [← h x hxr hxs]
        exact hxu
    · rintro (hxs | ⟨hxr, hxu⟩)
      · subst hxs
        exact ⟨hs, hu'⟩
      · refine ⟨hxr, ?_⟩
        by_cases hxs : x = s
        · subst hxs
          rw [hu] at hxu
          cases hxu
        · rw [h x hxr hxs]
          exact hxu
  have hnotmem : s ∉ (Finset.range cfg.cacheCapacity).filter
      (fun t => (st.entries t).used = true) := by
    simp [Finset.mem_filter, hu]
  rw [hset, Finset.card_insert_of_not_mem hnotmem]

theorem liveCount_eq_sub {cfg : Config} {st : CacheState} (hwf : WF cfg st) :
    liveCount cfg st = cfg.cacheCapacity - st.freeSlots.length := by
  unfold liveCount
  have hset : ((Finset.range cfg.cacheCapacity).filter fun t => (st.entries t).used = true) =
      Finset.range cfg.cacheCapacity \ st.freeSlots.toFinset := by
    ext x
    simp only [Finset.mem_filter, Finset.mem_range, Finset.mem_sdiff, List.mem_toFinset]
    constructor
    · rintro ⟨hxr, hxu⟩
      refine ⟨hxr, ?_⟩
      intro hxf
      have hun := hwf.freeUnused x hxf
      rw [hxu] at hun
      cases hun
    · rintro ⟨hxr, hxf⟩
      refine ⟨hxr, ?_⟩
      cases hbe : (st.entries x).used with
      | true => rfl
      | false => exact absurd (hwf.unusedFree x hxr hbe) hxf
  have hsub : st.freeSlots.toFinset ⊆ Finset.range cfg.cacheCapacity := by
    intro x hx
    rw [List.mem_toFinset] at hx
    exact Finset.mem_range.mpr (hwf.freeLt x hx)
  rw [hset, Finset.card_sdiff hsub, Finset.card_range,
    List.toFinset_card_of_nodup hwf.freeNodup]

theorem evictCore_meta (cfg : Config) (st : CacheState) (v : Nat) :
    (∀ t, t ≠ v → ((evictCore cfg st v).entries t).used = (st.entries t).used) ∧
    (∀ t, ((evictCore cfg st v).entries t).desc = (st.entries t).desc) ∧
    ((evictCore cfg st v).entries v).used = false := by
  have hE : (evictCore cfg st v).entries =
      Function.update (evictUnlink cfg st v).entries v
        { (evictUnlink cfg st v).entries v with used := false, hnext := none } := by
    rw [evictCore_eq]
  have hUnl : ∀ t, ((evictUnlink cfg st v).entries t).used = (st.entries t).used ∧
      ((evictUnlink cfg st v).entries t).desc = (st.entries t).desc := by
    intro t
    rcases evictUnlink_cases cfg st v with ⟨_, hunl⟩ | ⟨hd, _, hcase⟩
    · rw [hunl]
      exact ⟨rfl, rfl⟩
    · rcases hcase with ⟨_, hunl⟩ | ⟨_, hunl⟩
      · rw [hunl]
        exact ⟨rfl, rfl⟩
      · rw [hunl]
        exact ⟨(unlinkChain_meta st.entries v cfg.cacheCapacity hd t).2.2,
          (unlinkChain_meta st.entries v cfg.cacheCapacity hd t).1⟩
  refine ⟨?_, ?_, ?_⟩
  · intro t htv
    rw [hE, Function.update_noteq htv]
    exact (hUnl t).1
  · intro t
    rw [hE]
    by_cases htv : t = v
    · rw [htv, Function.update_same]
      exact (hUnl v).2
    · rw [Function.update_noteq htv]
      exact (hUnl t).2
  · rw [hE, Function.update_same]

theorem find_miss_of_fresh {cfg : Config} {st : CacheState} {d : Descriptor} (hwf : WF cfg st)
    (hcc : cfg.cacheCapacity ≤ cfg.chainCap)
    (hfresh : ∀ s, s < cfg.cacheCapacity → (st.entries s).used = true →
      (st.entries s).desc ≠ d) :
    find cfg st d = FindResult.miss := by
  obtain ⟨l, hl⟩ := hwf.chainEx (hashDesc cfg d)
  have hnd := realizes_nodup hl
  have hmem : ∀ s, s ∈ l → s < cfg.cacheCapacity := fun s hs => (hwf.chainMem _ _ hl s hs).1
  have hlen : l.length ≤ cfg.chainCap := le_trans (nodup_lt_length_le hnd hmem) hcc
  have hfa := findAux_realizes (d := d) hl cfg.chainCap hlen
  cases hres : find cfg st d with
  | fatal => exact absurd hres hfa.1
  | miss => rfl
  | hit i =>
    have hi : i ∈ l := hfa.2 i hres
    have hdes : (st.entries i).desc = d := findAux_hit_desc hres
    have hmemf := hwf.chainMem _ _ hl i hi
    exact absurd hdes (hfresh i hmemf.1 hmemf.2.1)

theorem load_fresh_step {cfg : Config} {st : CacheState} {d : Descriptor}
    (hwf : WF cfg st) (hcc : cfg.cacheCapacity ≤ cfg.chainCap)
    (hfresh : ∀ s, s < cfg.cacheCapacity → (st.entries s).used = true →
      (st.entries s).desc ≠ d) :
    WF cfg (load cfg st d true).2 ∧
    liveCount cfg (load cfg st d true).2 = min (liveCount cfg st + 1) cfg.cacheCapacity ∧
    (∀ s, s < cfg.cacheCapacity → ((load cfg st d true).2.entries s).used = true →
      ((load cfg st d true).2.entries s).desc = d ∨
        ((st.entries s).used = true ∧
          ((load cfg st d true).2.entries s).desc = (st.entries s).desc)) := by
  have hmiss := find_miss_of_fresh hwf hcc hfresh
  cases hfs : st.freeSlots with
  | cons s0 rest =>
    have hacq := acquireSlot_cons cfg st s0 rest hfs
    have hld := load_miss_true_eq cfg st { st with freeSlots := rest } d s0 hmiss hacq
    have hwx := acquireSlot_wfx hwf hacq
    have hs0lt : s0 < cfg.cacheCapacity := hwx.vLt
    have hs0un : (st.entries s0).used = false := hwx.vUnused
    have hE2 : (load cfg st d true).2.entries =
        Function.update st.entries s0
          { desc := d, surface := st.nextHandle
            hnext := st.buckets (hashDesc cfg d), used := true } := by
      rw [hld]
    refine ⟨?_, ?_, ?_⟩
    · rw [hld]
      exact insert_wf hwx rfl rfl rfl rfl rfl
    · have hlc : liveCount cfg (load cfg st d true).2 = liveCount cfg st + 1 := by
        refine liveCount_succ hs0lt hs0un ?_ ?_
        · rw [hE2, Function.update_same]
        · intro t htl htn
          rw [hE2, Function.update_noteq htn]
      rw [hlc]
      have hsub := liveCount_eq_sub hwf
      rw [hfs] at hsub
      have := liveCount_le cfg st
      simp only [List.length_cons] at hsub
      omega
    · intro s hs hsu
      by_cases hss : s = s0
      · subst hss
        refine Or.inl ?_
        rw [hE2, Function.update_same]
      · refine Or.inr ⟨?_, ?_⟩
        · rw [hE2, Function.update_noteq hss] at hsu
          exact hsu
        · rw [hE2, Function.update_noteq hss]
  | nil =>
    by_cases hcap : cfg.cacheCapacity = 0
    · have hacq := acquireSlot_nil_zero cfg st hfs hcap
      have hld := load_miss_none_eq cfg st d true hmiss hacq
      rw [hld]
      refine ⟨hwf, ?_, ?_⟩
      · have h1 := liveCount_le cfg st
        have h2 : liveCount cfg ((LoadResult.noneFail, st)).2 = liveCount cfg st := rfl
        rw [hcap] at h1 ⊢
        omega
      · intro s hs hsu
        exact Or.inr ⟨hsu, rfl⟩
    · have hacq := acquireSlot_nil_evict cfg st hfs hcap
      have hld := load_miss_true_eq cfg st
        { evictCore cfg st (st.ringPos % cfg.cacheCapacity) with ringPos := st.ringPos + 1 }
        d (st.ringPos % cfg.cacheCapacity) hmiss hacq
      have hwx := acquireSlot_wfx hwf hacq
      have hvlt : st.ringPos % cfg.cacheCapacity < cfg.cacheCapacity := hwx.vLt
      have hvused : (st.entries (st.ringPos % cfg.cacheCapacity)).used = true := by
        cases hbe : (st.entries (st.ringPos % cfg.cacheCapacity)).used with
        | false =>
          have hin := hwf.unusedFree _ hvlt hbe
          rw [hfs] at hin
          cases hin
        | true => rfl
      have hmeta := evictCore_meta cfg st (st.ringPos % cfg.cacheCapacity)
      have hE2 : (load cfg st d true).2.entries =
          Function.update (evictCore cfg st (st.ringPos % cfg.cacheCapacity)).entries
            (st.ringPos % cfg.cacheCapacity)
            { desc := d
              surface := (evictCore cfg st (st.ringPos % cfg.cacheCapacity)).nextHandle
              hnext := (evictCore cfg st (st.ringPos % cfg.cacheCapacity)).buckets
                (hashDesc cfg d)
              used := true } := by
        rw [hld]
      have hlceq : liveCount cfg (load cfg st d true).2 = liveCount cfg st := by
        apply liveCount_congr
        intro t htl
        by_cases htv : t = st.ringPos % cfg.cacheCapacity
        · rw [hE2, htv, Function.update_same]
          exact hvused.symm
        · rw [hE2, Function.update_noteq htv]
          exact hmeta.1 t htv
      have hcapeq : liveCount cfg st = cfg.cacheCapacity := by
        have hsub := liveCount_eq_sub hwf
        rw [hfs] at hsub
        simpa using hsub
      rw [hlceq, hcapeq]
      refine ⟨?_, ?_, ?_⟩
      · rw [hld]
        exact insert_wf hwx rfl rfl rfl rfl rfl
      · omega
      · intro s hs hsu
        by_cases hss : s = st.ringPos % cfg.cacheCapacity
        · refine Or.inl ?_
          rw [hE2, hss, Function.update_same]
        · refine Or.inr ⟨?_, ?_⟩
          · rw [hE2, Function.update_noteq hss] at hsu
            rw [← hmeta.1 s hss]
            exact hsu
          · rw [hE2, Function.update_noteq hss]
            exact hmeta.2.1 s

theorem loadList_full {cfg : Config} (hcc : cfg.cacheCapacity ≤ cfg.chainCap) :
    ∀ (ds : List Descriptor) (st : CacheState), WF cfg st → ds.Nodup →
    (∀ s, s < cfg.cacheCapacity → (st.entries s).used = true → (st.entries s).desc ∉ ds) →
    liveCount cfg (loadList cfg st ds) =
      min (liveCount cfg st + ds.length) cfg.cacheCapacity := by
  intro ds
  induction ds with
  | nil =>
    intro st hwf _ _
    have h1 := liveCount_le cfg st
    have h2 : loadList cfg st [] = st := rfl
    rw [h2]
    simp only [List.length_nil, Nat.add_zero]
    omega
  | cons d ds ih =>
    intro st hwf hnd hfresh
    have hfreshd : ∀ s, s < cfg.cacheCapacity → (st.entries s).used = true →
        (st.entries s).desc ≠ d := by
      intro s hs hu he
      exact hfresh s hs hu (by rw [he]; exact List.mem_cons_self _ _)
    obtain ⟨hwf2, hlc, hdesc⟩ := load_fresh_step hwf hcc hfreshd
    have hfresh2 : ∀ s, s < cfg.cacheCapacity →
        ((load cfg st d true).2.entries s).used = true →
        ((load cfg st d true).2.entries s).desc ∉ ds := by
      intro s hs hu hmem
      rcases hdesc s hs hu with hd1 | ⟨hu1, hd2⟩
      · rw [hd1] at hmem
        exact (List.nodup_cons.mp hnd).1 hmem
      · rw [hd2] at hmem
        exact hfresh s hs hu1 (List.mem_cons_of_mem _ hmem)
    have hih := ih (load cfg st d true).2 hwf2 (List.nodup_cons.mp hnd).2 hfresh2
    have hunf : loadList cfg st (d :: ds) = loadList cfg (load cfg st d true).2 ds := rfl
    rw [hunf, hih, hlc]
    have h1 := liveCount_le cfg st
    simp only [List.length_cons]
    omega

/-- C2: in every reachable cache state the number of live entries is at
most `cacheCapacity`, and loading any list of more than `cacheCapacity`
pairwise distinct descriptors (all backend creations succeeding) into a
fresh cache leaves the store with exactly `cacheCapacity` live entries. -/
theorem capacity_invariant (cfg : Config) (ds : List Descriptor)
    (hcc : cfg.cacheCapacity ≤ cfg.chainCap) (hnd : ds.Nodup)
    (hM : cfg.cacheCapacity < ds.length) :
    (∀ st, Reachable cfg st → liveCount cfg st ≤ cfg.cacheCapacity) ∧
    liveCount cfg (loadList cfg (initState cfg) ds) = cfg.cacheCapacity := by
  constructor
  · intro st _
    exact liveCount_le cfg st
  · have hfresh0 : ∀ s, s < cfg.cacheCapacity → ((initState cfg).entries s).used = true →
        ((initState cfg).entries s).desc ∉ ds := by
      intro s hs hu
      exact Bool.noConfusion hu
    have h := loadList_full hcc ds (initState cfg) (init_wf cfg) hnd hfresh0
    have h0 : liveCount cfg (initState cfg) = 0 := by
      unfold liveCount
      have hempty : ((Finset.range cfg.cacheCapacity).filter
          fun s => (((initState cfg).entries s)).used = true) = ∅ := by
        apply Finset.filter_eq_empty_iff.mpr
        intro x _
        intro hcon
        exact Bool.noConfusion hcon
      rw [hempty]
      rfl
    rw [h0] at h
    rw [h]
    omega

/-- C2 witness: the theorem applied to the small two-slot configuration
and three pairwise distinct text descriptors. -/
theorem capacity_invariant_witness :
    (∀ st, Reachable cfg0 st → liveCount cfg0 st ≤ cfg0.cacheCapacity) ∧
    liveCount cfg0 (loadList cfg0 (initState cfg0) ds0) = cfg0.cacheCapacity :=
  capacity_invariant cfg0 ds0 (by decide) (by decide) (by decide)
